import Mathlib

/-!
Verification of the calenJO calendar-photo importer.

This file gives a shallow embedding, in Lean, of the two core stages of the
pipeline and proves or refutes the specified properties about them:

* the red-region detector of the canvas strategy
  (`CanvasStrategy.detectRedRegions`) together with the region merge step
  (`mergeOverlappingRegions`, identical in the canvas and OpenCV strategies);
* the calendar reconstructor (`parseCalendarFromOCR` from the parser module,
  with its helpers `assignWeekIndices`, `cleanEventText`,
  `extractTimeFromText`).

JavaScript numbers that hold pixel coordinates, day numbers, years and months
are modelled as `Int` (all the arithmetic performed on them is exact integer
arithmetic).  JavaScript `Date` normalization (month index overflow and day
overflow) is modelled by `mkJSDate`.  The `while` loops of the detector are
modelled with an explicit fuel argument; the termination theorem for claim
C10 shows that results are stable once the fuel reaches the bound implied by
the loop variants.  `Math.random`-based event identifiers are modelled by an
explicit generator argument `gen : Nat -> String`.
-/

/-- JavaScript `Math.abs` on integers. -/
def jsAbs (i : Int) : Int := if i < 0 then -i else i

/-! ## Regions and the merge step shared by both detection strategies -/

/-- An axis-aligned bounding box, as in `types/calendar.ts`. -/
structure Region where
  x : Int
  y : Int
  width : Int
  height : Int
deriving DecidableEq, Repr, Inhabited

/-- `regionsOverlap` from `CanvasStrategy` / `OpenCVStrategy`: closed-interval
overlap-or-touch test on both axes. -/
def regionsOverlap (r1 r2 : Region) : Bool :=
  !(r1.x + r1.width < r2.x ||
    r2.x + r2.width < r1.x ||
    r1.y + r1.height < r2.y ||
    r2.y + r2.height < r1.y)

/-- `mergeTwoRegions` from `CanvasStrategy` / `OpenCVStrategy`: union bounding
box of two regions. -/
def mergeTwoRegions (r1 r2 : Region) : Region :=
  let minX := min r1.x r2.x
  let minY := min r1.y r2.y
  let maxX := max (r1.x + r1.width) (r2.x + r2.width)
  let maxY := max (r1.y + r1.height) (r2.y + r2.height)
  { x := minX, y := minY, width := maxX - minX, height := maxY - minY }

/-- One full `for (j ...)` pass of the inner `while (mergedNew)` loop of
`mergeOverlappingRegions`: scan the indices `js`, absorbing into `current`
every not-yet-used region that overlaps the (growing) `current` box.
Returns the grown box, the grown used set, and the `mergedNew` flag. -/
def mergePass (regions : List Region) : List Nat → Region → Finset Nat → Bool →
    Region × Finset Nat × Bool
  | [], current, used, mergedNew => (current, used, mergedNew)
  | j :: js, current, used, mergedNew =>
    if j ∈ used then
      mergePass regions js current used mergedNew
    else
      let other := regions.getD j default
      if regionsOverlap current other then
        mergePass regions js (mergeTwoRegions current other) (insert j used) true
      else
        mergePass regions js current used mergedNew

/-- The inner `while (mergedNew)` loop of `mergeOverlappingRegions`, with an
explicit fuel bounding the number of passes.  Each pass that merges at least
one region shrinks the unused set, so `regions.length + 1` passes always
reach the fixed point (see the termination theorem for C10). -/
def mergeLoop (regions : List Region) : Nat → Region → Finset Nat →
    Region × Finset Nat
  | 0, current, used => (current, used)
  | fuel + 1, current, used =>
    match mergePass regions (List.range regions.length) current used false with
    | (current', used', mergedNew) =>
      if mergedNew then mergeLoop regions fuel current' used'
      else (current', used')

/-- The outer `for (i ...)` loop of `mergeOverlappingRegions`.  In addition
to the merged boxes the embedding records, for each produced box, the set of
input indices absorbed into it (the cluster members); the production code
keeps this information only implicitly in its `used` set. -/
def mergeClusters (regions : List Region) : List Nat → List (Region × Finset Nat) →
    Finset Nat → List (Region × Finset Nat)
  | [], merged, _ => merged
  | i :: is, merged, used =>
    if i ∈ used then mergeClusters regions is merged used
    else
      let start := regions.getD i default
      match mergeLoop regions (regions.length + 1) start (insert i used) with
      | (current, used') =>
        mergeClusters regions is (merged ++ [(current, used' \ used)]) used'

/-- `mergeOverlappingRegions` from `CanvasStrategy` (and, with identical code,
`OpenCVStrategy`): greedy clustering of overlapping regions into union
boxes. -/
def mergeOverlappingRegions (regions : List Region) : List Region :=
  if regions.isEmpty then []
  else (mergeClusters regions (List.range regions.length) [] ∅).map (·.1)

theorem mergeCheck :
    mergeOverlappingRegions [⟨0, 0, 10, 10⟩, ⟨5, 5, 10, 10⟩] = [⟨0, 0, 15, 15⟩] := by
  decide

/-! ## The canvas detection strategy -/

/-- The `ImageData` consumed by `CanvasStrategy.detectRedRegions`: RGBA
samples in row-major order.  The production code reads `data[k]` on a
`Uint8ClampedArray`; all reads performed by the algorithm are in bounds, and
out-of-range reads are modelled (like JavaScript `undefined` coerced by the
comparisons) as `0`. -/
structure ImageData where
  width : Nat
  height : Nat
  data : List Nat
deriving DecidableEq, Repr

namespace CanvasStrategy

/-- The red-pixel predicate of `CanvasStrategy.detectRedRegions`. -/
def isRed (r g b : Nat) : Bool := 150 < r && g < 100 && b < 100

/-- State of the stack-based flood fill in `findCluster`: the work stack of
coordinates, the visited set of linear pixel indices, and the bounding box
accumulated so far. -/
structure FloodState where
  stack : List (Int × Int)
  visited : Finset Int
  minX : Int
  maxX : Int
  minY : Int
  maxY : Int

/-- One iteration of the `while (stack.length > 0)` loop of `findCluster`,
applied after popping `(x, y)` off the stack (`rest` is the remaining
stack). -/
def floodStep (img : ImageData) (x y : Int) (rest : List (Int × Int))
    (s : FloodState) : FloodState :=
  let idx := y * (img.width : Int) + x
  if idx ∈ s.visited || x < 0 || (img.width : Int) ≤ x || y < 0 ||
      (img.height : Int) ≤ y then
    { s with stack := rest }
  else
    let pixelIdx := (idx * 4).toNat
    let r := img.data.getD pixelIdx 0
    let g := img.data.getD (pixelIdx + 1) 0
    let b := img.data.getD (pixelIdx + 2) 0
    if !isRed r g b then
      { s with stack := rest }
    else
      { stack := (x, y + 1) :: (x, y - 1) :: (x + 1, y) :: (x - 1, y) :: rest,
        visited := insert idx s.visited,
        minX := min s.minX x, maxX := max s.maxX x,
        minY := min s.minY y, maxY := max s.maxY y }

/-- The `while (stack.length > 0)` loop of `findCluster`, with explicit fuel.
Every iteration either marks an unvisited in-range red pixel as visited (and
pushes its four neighbours) or just pops, so the fuel bound
`5 * width * height + stack length` reaches the fixed point (claim C10). -/
def floodLoop (img : ImageData) : Nat → FloodState → FloodState
  | 0, s => s
  | fuel + 1, s =>
    match s.stack with
    | [] => s
    | (x, y) :: rest => floodLoop img fuel (floodStep img x y rest s)

/-- `findCluster` from `CanvasStrategy.detectRedRegions`: flood fill from a
seed pixel, returning the bounding box of the connected red component and
the updated visited set. -/
def findCluster (img : ImageData) (fuel : Nat) (startX startY : Int)
    (visited : Finset Int) : Region × Finset Int :=
  let s := floodLoop img fuel
    { stack := [(startX, startY)], visited := visited,
      minX := startX, maxX := startX, minY := startY, maxY := startY }
  ({ x := s.minX, y := s.minY,
     width := s.maxX - s.minX + 1, height := s.maxY - s.minY + 1 }, s.visited)

/-- Body of the double scan loop of `detectRedRegions` for one grid point
`(x, y)`: seed a flood fill when the pixel is red and unvisited, and keep the
resulting region when it is larger than the 5-pixel noise threshold. -/
def scanPoint (img : ImageData) (fuel : Nat) (y x : Nat)
    (acc : List Region × Finset Int) : List Region × Finset Int :=
  let idx := (y * img.width + x) * 4
  let r := img.data.getD idx 0
  let g := img.data.getD (idx + 1) 0
  let b := img.data.getD (idx + 2) 0
  if isRed r g b && ((y * img.width + x : Nat) : Int) ∉ acc.2 then
    let rv := findCluster img fuel (x : Int) (y : Int) acc.2
    if 5 < rv.1.width && 5 < rv.1.height then (acc.1 ++ [rv.1], rv.2)
    else (acc.1, rv.2)
  else acc

/-- The scan visits every other pixel in each axis (`y += 2`, `x += 2`). -/
def scanCoords (n : Nat) : List Nat := (List.range ((n + 1) / 2)).map (2 * ·)

/-- `CanvasStrategy.detectRedRegions`: coarse scan for red seeds, flood fill
into connected components, size filter, then region merging.  `fuel` bounds
the flood-fill loops; see the C10 theorem for its sufficiency. -/
def detectRedRegions (fuel : Nat) (img : ImageData) : List Region :=
  let scanned := (scanCoords img.height).foldl
    (fun acc y => (scanCoords img.width).foldl
      (fun acc2 x => scanPoint img fuel y x acc2) acc)
    ([], (∅ : Finset Int))
  mergeOverlappingRegions scanned.1

end CanvasStrategy

/-! ## JavaScript dates

`parseCalendarFromOCR` builds event dates with `new Date(year, monthIndex,
day)` and reads them back with `getFullYear` / `getMonth` / `getDate`.  The
ECMAScript constructor normalizes an out-of-range month index into the year
and an out-of-range day into the adjacent months of the proleptic Gregorian
calendar; `mkJSDate` models exactly that normalization. -/

/-- A normalized JavaScript date: `year` is `getFullYear()`, `month0` is the
zero-based `getMonth()`, `day` is `getDate()`. -/
structure JSDate where
  year : Int
  month0 : Int
  day : Int
deriving DecidableEq, Repr, Inhabited

/-- Gregorian leap-year rule used by JavaScript `Date`. -/
def isLeapYear (y : Int) : Bool :=
  (y.emod 4 == 0 && y.emod 100 != 0) || y.emod 400 == 0

/-- Number of days of the month with zero-based index `m0` (expected in
`0..11`) of year `y`. -/
def daysInG (y m0 : Int) : Int :=
  if m0 = 1 then (if isLeapYear y then 29 else 28)
  else if m0 = 3 ∨ m0 = 5 ∨ m0 = 8 ∨ m0 = 10 then 30
  else 31

/-- Day-level normalization of a date whose month index is already in
`0..11`: move an out-of-range `day` into the adjacent months.  The fuel is
an embedding artifact; the arguments produced by the parser (`0 ≤ day ≤ 31`)
need at most one step. -/
def normDay : Nat → Int → Int → Int → JSDate
  | 0, y, m0, d => ⟨y, m0, d⟩
  | fuel + 1, y, m0, d =>
    if d < 1 then
      let y' := if m0 = 0 then y - 1 else y
      let m0' := if m0 = 0 then 11 else m0 - 1
      normDay fuel y' m0' (d + daysInG y' m0')
    else if daysInG y m0 < d then
      let y' := if m0 = 11 then y + 1 else y
      let m0' := if m0 = 11 then 0 else m0 + 1
      normDay fuel y' m0' (d - daysInG y m0)
    else ⟨y, m0, d⟩

/-- `new Date(y, monthIndex, day)` of ECMAScript, restricted to the fields
the parser reads back. -/
def mkJSDate (y monthIndex day : Int) : JSDate :=
  normDay 60 (y + monthIndex / 12) (monthIndex % 12) day

/-- `new Date(year, month, 0).getDate()` — how `parseCalendarFromOCR`
computes the number of days of the requested (1-based) month. -/
def jsDaysInMonth (year month : Int) : Int := (mkJSDate year month 0).day

/-! ## Text utilities of the parser

The parser manipulates fragment text with JavaScript regular expressions.
These are embedded as character-list scanners with the exact semantics of
the patterns used: `\b(\d{1,2})\b` (day-number token), `/[^\w\s\-:]/g` and
`/\s+/g` (title cleaning), `/(\d{1,2}):(\d{2})\s*(AM|PM|am|pm)?/gi` (time
matching), `/^\d{1,2}$/` (bare-number test), `/C/i` and the moon glyphs
(shift indicator).  Scanners that advance by a non-structural amount carry a
fuel argument; callers pass the string length, which is always sufficient
because every step consumes at least one character. -/

/-- JavaScript word character (`\w`): ASCII letters, digits, underscore. -/
def isWordChar (c : Char) : Bool :=
  ('a' ≤ c && c ≤ 'z') || ('A' ≤ c && c ≤ 'Z') || ('0' ≤ c && c ≤ '9') || c = '_'

/-- ASCII digit (`\d`). -/
def isDigitChar (c : Char) : Bool := '0' ≤ c && c ≤ '9'

/-- JavaScript whitespace (`\s`), restricted to the characters that can
occur in this pipeline. -/
def isSpaceChar (c : Char) : Bool :=
  c = ' ' || c = '\t' || c = '\n' || c = '\x0d' || c = '\x0b' || c = '\x0c' ||
  c = ' '

/-- Numeric value of a digit list (the matched day token has 1 or 2
digits, so no overflow concerns arise). -/
def digitsToNat (ds : List Char) : Nat :=
  ds.foldl (fun acc c => acc * 10 + (c.toNat - '0'.toNat)) 0

/-- First match of `\b(\d{1,2})\b` in a character list, as
`(before, digits, after)`.  A match is a maximal word-character run that
consists solely of 1 or 2 digits: the `\b` anchors of the pattern rule out
any digit block adjacent to another word character.  Fuel: length of the
list. -/
def findDayTok : Nat → List Char → Option (List Char × List Char × List Char)
  | 0, _ => none
  | _, [] => none
  | fuel + 1, c :: rest =>
    if isWordChar c then
      let run := c :: rest.takeWhile isWordChar
      let rest' := rest.dropWhile isWordChar
      if run.all isDigitChar && (run.length = 1 || run.length = 2) then
        some ([], run, rest')
      else
        match findDayTok fuel rest' with
        | some (b, d, a) => some (run ++ b, d, a)
        | none => none
    else
      match findDayTok fuel rest with
      | some (b, d, a) => some (c :: b, d, a)
      | none => none

/-- `text.match(/\b(\d{1,2})\b/)`, returning the numeric value of the first
day-number token. -/
def dayTokenNum (text : String) : Option Nat :=
  match findDayTok (text.toList.length + 1) text.toList with
  | some (_, ds, _) => some (digitsToNat ds)
  | none => none

/-- `text.replace(/\b\d{1,2}\b/, '')`: remove the first day-number token. -/
def stripFirstDay (text : String) : String :=
  match findDayTok (text.toList.length + 1) text.toList with
  | some (b, _, a) => (b ++ a).asString
  | none => text

/-- JavaScript `String.prototype.trim`. -/
def jsTrim (text : String) : String :=
  (((text.toList.dropWhile isSpaceChar).reverse.dropWhile isSpaceChar).reverse).asString

/-- `/\s+/g → ' '`: collapse whitespace runs to a single space.  Fuel:
length of the list. -/
def collapseWS : Nat → List Char → List Char
  | 0, cs => cs
  | _, [] => []
  | fuel + 1, c :: rest =>
    if isSpaceChar c then ' ' :: collapseWS fuel (rest.dropWhile isSpaceChar)
    else c :: collapseWS fuel rest

/-- `cleanEventText` from the parser: drop characters outside `[\w\s\-:]`,
collapse whitespace runs, trim. -/
def cleanEventText (text : String) : String :=
  let kept := text.toList.filter
    (fun c => isWordChar c || isSpaceChar c || c = '-' || c = ':')
  jsTrim (collapseWS (kept.length + 1) kept).asString

/-- `/^\d{1,2}$/.test text` — the bare-number test of the adjacent-fragment
title lookup. -/
def isBareNumber (text : String) : Bool :=
  text.toList.all isDigitChar &&
    (text.toList.length = 1 || text.toList.length = 2)

/-- `/C/i.test(text) || /[moon glyphs]/u.test(text)` — the night-shift
indicator of jojo mode. -/
def hasNightIndicator (text : String) : Bool :=
  text.toList.any (fun c => c = 'C' || c = 'c') ||
  text.toList.any (fun c =>
    c = Char.ofNat 0x1F319 || c = Char.ofNat 0x263E ||
    c = Char.ofNat 0x1F31B || c = Char.ofNat 0x1F31C)

/-- AM/PM suffix of a matched time. -/
inductive Meridiem where
  | am : Meridiem
  | pm : Meridiem
deriving DecidableEq, Repr

/-- One match of `/(\d{1,2}):(\d{2})\s*(AM|PM|am|pm)?/i`: captured hour
value, captured minute digits, optional captured meridiem. -/
structure TimeMatch where
  hours : Nat
  minutes : List Char
  period : Option Meridiem
deriving DecidableEq, Repr

/-- Try to match `/(\d{1,2}):(\d{2})\s*(AM|PM|am|pm)?/i` at the head of the
list.  Returns the match data and the suffix after the matched substring
(which includes the greedy `\s*` run even when no meridiem follows). -/
def matchTimeAt (cs : List Char) : Option (TimeMatch × List Char) :=
  let core : Option (Nat × List Char × List Char) :=
    match cs with
    | c1 :: c2 :: c3 :: c4 :: c5 :: rest =>
      if isDigitChar c1 && isDigitChar c2 && c3 = ':' && isDigitChar c4 &&
          isDigitChar c5 then
        some (digitsToNat [c1, c2], [c4, c5], rest)
      else if isDigitChar c1 && c2 = ':' && isDigitChar c3 && isDigitChar c4 then
        some (digitsToNat [c1], [c3, c4], c5 :: rest)
      else none
    | [c1, c2, c3, c4] =>
      if isDigitChar c1 && c2 = ':' && isDigitChar c3 && isDigitChar c4 then
        some (digitsToNat [c1], [c3, c4], [])
      else none
    | _ => none
  match core with
  | none => none
  | some (h, mins, rest) =>
    let afterWS := rest.dropWhile isSpaceChar
    match afterWS with
    | p :: m :: rest' =>
      if (p = 'A' || p = 'a') && (m = 'M' || m = 'm') then
        some (⟨h, mins, some Meridiem.am⟩, rest')
      else if (p = 'P' || p = 'p') && (m = 'M' || m = 'm') then
        some (⟨h, mins, some Meridiem.pm⟩, rest')
      else some (⟨h, mins, none⟩, afterWS)
    | _ => some (⟨h, mins, none⟩, afterWS)

/-- Global scan of the time pattern, as performed both by
`text.matchAll(timeRegex)` and by `replace(timeRegex, '')`: returns the text
with every match removed together with the list of matches in order.  Fuel:
length of the list (each step consumes at least one character). -/
def scanTimes : Nat → List Char → List Char × List TimeMatch
  | 0, cs => (cs, [])
  | _, [] => ([], [])
  | fuel + 1, c :: rest =>
    match matchTimeAt (c :: rest) with
    | some (tm, rem) =>
      let r := scanTimes fuel rem
      (r.1, tm :: r.2)
    | none =>
      let r := scanTimes fuel rest
      (c :: r.1, r.2)

/-- 24-hour normalization of one matched time, exactly as in
`extractTimeFromText`: `PM` adds 12 unless the hour is 12, `AM` maps hour 12
to 0, and the result is zero-padded `HH` joined to the captured minute
digits. -/
def normalizeTime (tm : TimeMatch) : String :=
  let hours :=
    if tm.period = some Meridiem.pm ∧ tm.hours ≠ 12 then tm.hours + 12
    else if tm.period = some Meridiem.am ∧ tm.hours = 12 then 0
    else tm.hours
  (if hours < 10 then "0" ++ toString hours else toString hours) ++ ":" ++
    tm.minutes.asString

/-- `extractTimeFromText` from the parser: first match becomes the start
time, second (when present) the end time. -/
def extractTimeFromText (text : String) : Option (String × Option String) :=
  match (scanTimes (text.toList.length + 1) text.toList).2 with
  | [] => none
  | t0 :: rest => some (normalizeTime t0, rest.head?.map normalizeTime)

/-- `eventTitle.replace(/\d{1,2}:\d{2}\s*(AM|PM|am|pm)?/gi, '').trim()` —
the title stored on an event once a time was extracted from it. -/
def stripTimesAndTrim (text : String) : String :=
  jsTrim (scanTimes (text.toList.length + 1) text.toList).1.asString

/-! ## Fragment sorting

`parseCalendarFromOCR` sorts fragments with `Array.prototype.sort` and the
comparator below.  ECMAScript requires a stable sort; it is modelled by a
stable top-down merge sort (contiguous halves).  The fuel argument makes the
recursion structural; `length` levels always suffice. -/

/-- A recognized OCR fragment (`OCRResult` from the OCR module). -/
structure OCRResult where
  text : String
  region : Region
  confidence : Int
deriving DecidableEq, Repr, Inhabited

/-- The sort comparator of `parseCalendarFromOCR`: Y difference when at
least 50 pixels apart, X difference otherwise. -/
def cmpResults (a b : OCRResult) : Int :=
  let yDiff := a.region.y - b.region.y
  if 50 ≤ jsAbs yDiff then yDiff else a.region.x - b.region.x

/-- `a` may be placed before `b` by a stable sort with `cmpResults`. -/
def leResults (a b : OCRResult) : Bool := cmpResults a b ≤ 0

/-- Stable merge of two lists under `le`, with fuel. -/
def jsMerge (le : OCRResult → OCRResult → Bool) :
    Nat → List OCRResult → List OCRResult → List OCRResult
  | 0, xs, ys => xs ++ ys
  | _, [], ys => ys
  | _, x :: xs, [] => x :: xs
  | fuel + 1, x :: xs, y :: ys =>
    if le x y then x :: jsMerge le fuel xs (y :: ys)
    else y :: jsMerge le fuel (x :: xs) ys

/-- Stable merge sort on contiguous halves, with fuel (the recursion depth
is bounded by the list length). -/
def jsMergeSort (le : OCRResult → OCRResult → Bool) :
    Nat → List OCRResult → List OCRResult
  | 0, l => l
  | _, [] => []
  | _, [a] => [a]
  | fuel + 1, a :: b :: rest =>
    let l := a :: b :: rest
    let k := (l.length + 1) / 2
    jsMerge le l.length (jsMergeSort le fuel (l.take k)) (jsMergeSort le fuel (l.drop k))

/-- `[...ocrResults].sort(comparator)` — the canonical ordering step of
`parseCalendarFromOCR`. -/
def sortResults (results : List OCRResult) : List OCRResult :=
  jsMergeSort leResults results.length results

/-! ## Week-row assignment -/

/-- `DateInfo` from the parser module. -/
structure DateInfo where
  day : Nat
  weekIndex : Int
  y : Int
  resultIndex : Nat
deriving DecidableEq, Repr

/-- The row-clustering fold of `assignWeekIndices`: keep the first Y, then
append every Y at distance at least 50 from the last kept row. -/
def buildRows (y0 : Int) (ys : List Int) : List Int :=
  (ys.foldl (fun acc y =>
    if 50 ≤ jsAbs (y - acc.1) then (y, acc.2 ++ [y]) else acc) (y0, [y0])).2

/-- Ascending numeric sort of the day-bearing Y positions
(`yPositions.sort((a, b) => a - b)`). -/
def sortInts (ys : List Int) : List Int :=
  (jsMergeSort (fun a b => a.region.y ≤ b.region.y) ys.length
    (ys.map (fun y => ⟨"", ⟨0, y, 0, 0⟩, 0⟩))).map (·.region.y)

/-- `rows.findIndex(y => Math.abs(y - ry) < 50)`, with the JavaScript `-1`
convention for a missed search. -/
def jsFindRowIndex (rows : List Int) (ry : Int) : Int :=
  match rows.findIdx? (fun y => jsAbs (y - ry) < 50) with
  | some i => (i : Int)
  | none => -1

/-- `assignWeekIndices` from the parser module, as the finite map from
positions in the sorted fragment list to `DateInfo`.  Fragments with
`x = 0 && text === '1'` are the dummy structure entries skipped by the
production code. -/
def assignWeekIndices (results : List OCRResult) : List (Nat × DateInfo) :=
  if results.isEmpty then []
  else
    let yPositions := results.filterMap
      (fun r => if (dayTokenNum r.text).isSome then some r.region.y else none)
    if yPositions.isEmpty then []
    else
      let ySorted := sortInts yPositions
      match ySorted with
      | [] => []
      | y0 :: yRest =>
        let rows := buildRows y0 yRest
        let weekOffset : Int := if 6 < rows.length then (rows.length : Int) - 6 else 0
        (results.enum.filterMap (fun (p : Nat × OCRResult) =>
          if p.2.region.x = 0 ∧ p.2.text = "1" then none
          else match dayTokenNum p.2.text with
            | some day =>
              let rowIndex := jsFindRowIndex rows p.2.region.y
              some (p.1, ⟨day, max 0 (rowIndex - weekOffset), p.2.region.y, p.1⟩)
            | none => none))

/-- Lookup in the result of `assignWeekIndices` (`datesWithWeeks.get(i)`). -/
def lookupDateInfo (m : List (Nat × DateInfo)) (i : Nat) : Option DateInfo :=
  (m.find? (fun p => p.1 = i)).map (·.2)

/-! ## The calendar reconstructor -/

/-- `CalendarType` from `types/calendar.ts`. -/
inductive CalendarType where
  | standard : CalendarType
  | jojo : CalendarType
deriving DecidableEq, Repr

/-- `CalendarEvent` from `types/calendar.ts`, restricted to the fields the
reconstructor writes. -/
structure CalendarEvent where
  id : String
  title : String
  date : JSDate
  startTime : Option String
  endTime : Option String
deriving DecidableEq, Repr, Inhabited

/-- `ParsedCalendarData` from `types/calendar.ts`. -/
structure ParsedCalendarData where
  year : Int
  month : Int
  events : List CalendarEvent
deriving DecidableEq, Repr

/-- The month-tracking variables of `parseCalendarFromOCR` (`lastDay`,
`currentWeek` and the four transition flags). -/
structure TrackState where
  lastDay : Int
  currentWeek : Int
  hasTransitionedToCurrent : Bool
  hasBeenInCurrentMonth : Bool
  isInNextMonth : Bool
  hasSeenEndOfMonth : Bool
deriving DecidableEq, Repr

/-- The full mutable state of the fragment loop: the month tracker, the
event list built so far, and the counter fed to the identifier generator
(which models the `Date.now()` / `Math.random()` part of each
identifier). -/
structure ParseState where
  track : TrackState
  events : List CalendarEvent
  nextId : Nat

/-- Initial state of the fragment loop. -/
def initParseState : ParseState :=
  ⟨⟨0, -1, false, false, false, false⟩, [], 0⟩

/-- The month-disambiguation rule chain of `parseCalendarFromOCR`, evaluated
for one `(day, weekIndex)` observation.  Returns the month offset together
with the updated tracking state (the `lastDay := day` update that the code
performs after the chain is applied here as well, since it happens on every
path). -/
def computeMonthOffset (st : TrackState) (day weekIndex : Int)
    (isNewWeek : Bool) (daysInMonth : Int) : Int × TrackState :=
  let r :=
    if weekIndex = 0 ∧ 25 ≤ day ∧ st.lastDay = 0 ∧ ¬st.hasBeenInCurrentMonth then
      ((-1 : Int), st)
    else if weekIndex = 0 ∧ 28 ≤ st.lastDay ∧ day ≤ 5 ∧ ¬st.hasTransitionedToCurrent then
      (0, { st with hasTransitionedToCurrent := true, hasBeenInCurrentMonth := true })
    else if 3 ≤ weekIndex ∧ 25 ≤ st.lastDay ∧ day ≤ 5 then
      (1, { st with isInNextMonth := true })
    else if 4 ≤ weekIndex ∧ day ≤ 10 ∧ st.hasSeenEndOfMonth then
      (1, { st with isInNextMonth := true })
    else if 4 ≤ weekIndex ∧ day ≤ 5 ∧ st.lastDay = 0 then
      (1, { st with isInNextMonth := true })
    else if 4 ≤ weekIndex ∧ daysInMonth < day then
      (1, { st with isInNextMonth := true })
    else if isNewWeek ∧ 25 ≤ day ∧ st.hasBeenInCurrentMonth ∧ 3 ≤ weekIndex then
      (0, { st with hasTransitionedToCurrent := true,
                    hasSeenEndOfMonth := if 24 ≤ day then true else st.hasSeenEndOfMonth })
    else if weekIndex = 0 ∧ day = st.lastDay + 1 ∧ 25 ≤ day then
      ((-1 : Int), st)
    else if st.isInNextMonth ∧ day = st.lastDay + 1 then
      (1, st)
    else if day = st.lastDay + 1 ∨ (st.lastDay = 0 ∧ day = 1) then
      (0, { st with
            hasBeenInCurrentMonth :=
              if ¬st.hasBeenInCurrentMonth ∧ 0 < weekIndex then true
              else st.hasBeenInCurrentMonth,
            hasTransitionedToCurrent :=
              if ¬st.hasBeenInCurrentMonth ∧ 0 < weekIndex then true
              else st.hasTransitionedToCurrent,
            hasSeenEndOfMonth :=
              if 24 ≤ day ∧ 3 ≤ weekIndex then true else st.hasSeenEndOfMonth })
    else if ¬st.hasBeenInCurrentMonth ∧ 5 < day ∧ day < 25 then
      (0, { st with hasBeenInCurrentMonth := true, hasTransitionedToCurrent := true })
    else
      (0, st)
  (r.1, { r.2 with lastDay := day })

/-- Apply the month offset to the requested `(year, month)` with the
explicit year-boundary handling of the code. -/
def applyMonthOffset (year month offset : Int) : Int × Int :=
  let actualMonth := month + offset
  if actualMonth = 0 then (year - 1, 12)
  else if actualMonth = 13 then (year + 1, 1)
  else (year, actualMonth)

/-- Title resolution for one fragment: text remaining in the fragment after
the day token, then (in standard mode) the proximity-checked next fragment,
then the jojo-mode shift labelling. -/
def resolveTitle (calendarType : CalendarType) (sorted : List OCRResult)
    (i : Nat) (r : OCRResult) : String :=
  let text := r.text
  let afterDate := jsTrim (stripFirstDay text)
  let t0 := if 1 < afterDate.toList.length then cleanEventText afterDate else ""
  let t1 :=
    if t0 = "" ∧ calendarType = CalendarType.standard ∧ i + 1 < sorted.length then
      let nextResult := sorted.getD (i + 1) default
      let yDiff := jsAbs (nextResult.region.y - r.region.y)
      let xDiff := jsAbs (nextResult.region.x - r.region.x)
      let isSameRow := yDiff < 60
      let isDirectlyBelow := 0 < yDiff ∧ yDiff < 100 ∧ xDiff < 50
      let isNearbyX := xDiff < 150
      let isNotJustANumber := ¬ isBareNumber nextResult.text
      if (isSameRow ∨ isDirectlyBelow) ∧ isNearbyX ∧ isNotJustANumber then
        cleanEventText nextResult.text
      else t0
    else t0
  if calendarType = CalendarType.jojo then
    if hasNightIndicator text then "nightshift"
    else if t1 ≠ "" then t1 else "dayshift"
  else t1

/-- Build the `CalendarEvent` for an accepted fragment: identifier, date via
the JavaScript `Date` constructor, time extraction and title stripping. -/
def buildEvent (gen : Nat → String) (k : Nat) (day actualMonth actualYear : Int)
    (eventTitle : String) : CalendarEvent :=
  let id := "event-" ++ toString day ++ "-" ++ toString actualMonth ++ "-" ++
    toString actualYear ++ "-" ++ gen k
  let date := mkJSDate actualYear (actualMonth - 1) day
  match extractTimeFromText eventTitle with
  | none => ⟨id, eventTitle, date, none, none⟩
  | some (s, e) => ⟨id, stripTimesAndTrim eventTitle, date, some s, e⟩

/-- The duplicate-event check (`events.some(...)`) of
`parseCalendarFromOCR`. -/
def isDuplicateEvent (events : List CalendarEvent) (day actualMonth actualYear : Int)
    (eventTitle : String) : Bool :=
  events.any (fun e =>
    e.date.day == day && e.date.month0 == actualMonth - 1 &&
    e.date.year == actualYear && e.title == eventTitle)

/-- Tail of one loop iteration, after the month offset and the title have
been computed: drop the fragment when it yielded no title or a duplicate
event, otherwise append the built event. -/
def finishEvent (gen : Nat → String) (st : ParseState) (tr2 : TrackState)
    (day : Int) (ya : Int × Int) (eventTitle : String) : ParseState :=
  if eventTitle = "" then { st with track := tr2 }
  else if isDuplicateEvent st.events day ya.2 ya.1 eventTitle then
    { st with track := tr2 }
  else
    { track := tr2,
      events := st.events ++ [buildEvent gen st.nextId day ya.2 ya.1 eventTitle],
      nextId := st.nextId + 1 }

/-- One iteration of the fragment loop of `parseCalendarFromOCR`. -/
def parseStep (gen : Nat → String) (calendarType : CalendarType)
    (year month daysInMonth : Int) (sorted : List OCRResult)
    (weekMap : List (Nat × DateInfo)) (st : ParseState) (i : Nat) : ParseState :=
  match sorted.get? i with
  | none => st
  | some r =>
    match dayTokenNum r.text with
    | none => st
    | some dn =>
      let day : Int := (dn : Int)
      if day < 1 ∨ 31 < day then st
      else
        match lookupDateInfo weekMap i with
        | none => st
        | some dateInfo =>
          let weekIndex := dateInfo.weekIndex
          let isNewWeek := weekIndex ≠ st.track.currentWeek
          let tr1 := if isNewWeek then { st.track with currentWeek := weekIndex }
                     else st.track
          let or' := computeMonthOffset tr1 day weekIndex isNewWeek daysInMonth
          let ya := applyMonthOffset year month or'.1
          let eventTitle := resolveTitle calendarType sorted i r
          finishEvent gen st or'.2 day ya eventTitle

/-- `parseCalendarFromOCR` from the parser module.  `gen` supplies the
opaque `Date.now()`-and-`Math.random()` portion of each event identifier. -/
def parseCalendarFromOCR (gen : Nat → String) (ocrResults : List OCRResult)
    (year month : Int) (calendarType : CalendarType) : ParsedCalendarData :=
  let daysInMonth := jsDaysInMonth year month
  let sorted := sortResults ocrResults
  let weekMap := assignWeekIndices sorted
  let final := (List.range sorted.length).foldl
    (parseStep gen calendarType year month daysInMonth sorted weekMap)
    initParseState
  ⟨year, month, final.events⟩

/-! ## Concrete inputs used by the scenario theorems and counterexamples -/

/-- A fixed identifier generator standing in for `Date.now()` and
`Math.random()`. -/
def genX : Nat → String := fun _ => "x"

/-- Fragment with the given text at the given position (the shape used
throughout the repository's own tests: 50 by 50 boxes, confidence 90). -/
def mkFrag (t : String) (x y : Int) : OCRResult := ⟨t, ⟨x, y, 50, 50⟩, 90⟩

/-- Input region list on which the greedy merge step produces two
overlapping boxes: the regions at indices 1, 2, 3 chain around the region at
index 0 without any of them overlapping it, and their union box does. -/
def cexRegions : List Region :=
  [⟨14, 10, 5, 5⟩, ⟨10, 0, 5, 5⟩, ⟨4, 0, 6, 25⟩, ⟨10, 20, 5, 5⟩]

/-- A March 2024 fragment list whose tail walks day by day through the next
month (April) up to a day number 31 that April does not have. -/
def climbFragments : List OCRResult :=
  [mkFrag "10" 10 0, mkFrag "11" 10 100, mkFrag "12" 10 200, mkFrag "26" 10 300] ++
  ((List.range 30).map (fun k => mkFrag (toString (k + 1)) (10 + 10 * (k : Int)) 400)) ++
  [mkFrag "31 Party" 320 400]

/-- Four fragments on which the canonical ordering step misplaces a pair
that is 80 pixels apart in Y: the comparator relates consecutive elements by
X (Y gaps of 40) but the 0-to-80 pair by Y, and no order satisfies all
comparisons. -/
def cexFragments : List OCRResult :=
  [⟨"c", ⟨100, 80, 50, 50⟩, 90⟩, ⟨"d", ⟨0, 200, 50, 50⟩, 90⟩,
   ⟨"b", ⟨200, 40, 50, 50⟩, 90⟩, ⟨"a", ⟨300, 0, 50, 50⟩, 90⟩]

/-! ## C1: the merge step can output overlapping boxes -/

/-- C1, counterexample.  The claim states that no two boxes returned by
`mergeOverlappingRegions` overlap or touch.  On `cexRegions` the merge
returns two boxes that do overlap: the cluster grown from indices 1, 2, 3 is
never re-checked against the already-emitted box of index 0. -/
theorem c1_merge_counterexample :
    mergeOverlappingRegions cexRegions =
      [⟨14, 10, 5, 5⟩, ⟨4, 0, 11, 25⟩] ∧
    regionsOverlap ⟨14, 10, 5, 5⟩ ⟨4, 0, 11, 25⟩ = true := by
  decide

/-! ## C3: no month-range validation exists -/

/-- C3: the claim states that a month outside 1..12 is rejected with a
descriptive error before any fragment processing.  `parseCalendarFromOCR`
has no validation or failure path at all: called with month 13 it processes
the fragment list normally and returns events (here a January-2025 event
produced from the requested month 13 of 2024). -/
theorem c3_invalid_month_processed :
    parseCalendarFromOCR genX [mkFrag "5 Hello" 10 0] 2024 13 CalendarType.standard =
      ⟨2024, 13, [⟨"event-5-1-2025-x", "Hello", ⟨2025, 0, 5⟩, none, none⟩]⟩ := by
  decide

/-! ## C6: first-week previous-month overflow scenario -/

/-- C6: for a February 2024 request, the fragment `31 Task` in row 0 with no
earlier day yields an event dated 2024-01-31 titled `Task`, and the fragment
`1 Work` following the 31 in the same row yields an event dated
2024-02-01. -/
theorem c6_first_week_overflow_scenario :
    (parseCalendarFromOCR genX [mkFrag "31 Task" 10 0, mkFrag "1 Work" 80 0]
        2024 2 CalendarType.standard).events =
      [⟨"event-31-1-2024-x", "Task", ⟨2024, 0, 31⟩, none, none⟩,
       ⟨"event-1-2-2024-x", "Work", ⟨2024, 1, 1⟩, none, none⟩] := by
  decide

/-! ## C7: leap-year tail rollover scenario -/

/-- C7: for a February 2024 request, the fragment `29 Review` at week index
4 followed by `1 Plan` at week index 4 produces events dated 2024-02-29 and
2024-03-01 (rows 0 to 3 are populated by day-bearing fragments so that the
last row really is week index 4). -/
theorem c7_tail_rollover_scenario :
    (parseCalendarFromOCR genX
        [mkFrag "10" 10 0, mkFrag "11" 10 100, mkFrag "12" 10 200,
         mkFrag "24" 10 300, mkFrag "29 Review" 10 400, mkFrag "1 Plan" 110 400]
        2024 2 CalendarType.standard).events.map
          (fun e => (e.date, e.title)) =
      [(⟨2024, 1, 29⟩, "Review"), (⟨2024, 2, 1⟩, "Plan")] := by
  decide

/-! ## C2: the month-offset bound, counterexample -/

set_option maxRecDepth 40000 in
/-- C2, counterexample.  The claim states that every produced event's
`(year, month)` is within one month of the request.  For the March 2024
request on `climbFragments` the parser reaches day 31 while in next-month
state, builds `new Date(2024, 3, 31)` — and April has 30 days, so the
JavaScript `Date` normalization rolls the event over to 2024-05-01: two
months after the requested (2024, 3). -/
theorem c2_month_offset_counterexample :
    (parseCalendarFromOCR genX climbFragments 2024 3 CalendarType.standard).events.map
        (fun e => (e.date.year, e.date.month0, e.date.day)) =
      [(2024, 3, 30), (2024, 4, 1)] := by
  decide

/-! ## C4: jojo-mode titles, counterexample -/

/-- C4, counterexample.  The claim states that in jojo mode an event with no
night-shift indicator is titled exactly `dayshift` regardless of any other
extracted title.  The fragment `7 Work` has no C and no moon glyph, yet its
event keeps the extracted title `Work`: the code only falls back to
`dayshift` when no title was extracted from the fragment's own text. -/
theorem c4_jojo_counterexample :
    hasNightIndicator "7 Work" = false ∧
    (parseCalendarFromOCR genX [mkFrag "7 Work" 10 0] 2024 3 CalendarType.jojo).events.map
        (fun e => e.title) = ["Work"] := by
  decide

/-! ## C9: canonical ordering, counterexample -/

/-- C9, counterexample.  The claim states that after sorting, any fragment
more than 50 pixels higher (smaller Y) than another appears earlier.  On
`cexFragments` the comparator is not transitive — the Y-0, Y-40 and Y-80
fragments are pairwise linked by the under-50-pixel X rule — and the sort
places the fragment at Y 80 first, before the fragment at Y 0, although
their Y coordinates differ by 80 pixels. -/
theorem c9_sort_counterexample :
    (sortResults cexFragments).map (fun r => (r.region.y, r.region.x)) =
      [(80, 100), (40, 200), (0, 300), (200, 0)] := by
  decide

/-! ## C5: time extraction and normalization -/

/-- C5: time extraction takes the first hour-colon-minutes match as the
start time and the second, if any, as the end time; `PM` with hour 12 stays
12 and otherwise adds 12, `AM` with hour 12 becomes 0, plain matches keep
their hour; the matched substrings are stripped from the stored title.  In
particular the title `Meeting 9:00 AM 10:30 AM` yields start `09:00`, end
`10:30` and cleaned title `Meeting` — also when it reaches the parser inside
a fragment. -/
theorem c5_time_extraction :
    (∀ h : Nat, ∀ ms : List Char,
        normalizeTime ⟨h, ms, some Meridiem.pm⟩ =
          (if (if h = 12 then 12 else h + 12) < 10 then
            "0" ++ toString (if h = 12 then 12 else h + 12)
          else toString (if h = 12 then 12 else h + 12)) ++ ":" ++ ms.asString ∧
        normalizeTime ⟨h, ms, some Meridiem.am⟩ =
          (if (if h = 12 then 0 else h) < 10 then
            "0" ++ toString (if h = 12 then 0 else h)
          else toString (if h = 12 then 0 else h)) ++ ":" ++ ms.asString ∧
        normalizeTime ⟨h, ms, none⟩ =
          (if h < 10 then "0" ++ toString h else toString h) ++ ":" ++ ms.asString) ∧
    (∀ text : String,
        extractTimeFromText text =
          match (scanTimes (text.toList.length + 1) text.toList).2 with
          | [] => none
          | t0 :: rest => some (normalizeTime t0, rest.head?.map normalizeTime)) ∧
    extractTimeFromText "Meeting 9:00 AM 10:30 AM" = some ("09:00", some "10:30") ∧
    stripTimesAndTrim "Meeting 9:00 AM 10:30 AM" = "Meeting" ∧
    (parseCalendarFromOCR genX [mkFrag "5 Meeting 9:00 AM 10:30 AM" 10 0]
        2024 2 CalendarType.standard).events =
      [⟨"event-5-2-2024-x", "Meeting", ⟨2024, 1, 5⟩, some "09:00", some "10:30"⟩] := by
  refine ⟨fun h ms => ⟨?_, ?_, ?_⟩, fun text => rfl, by decide, by decide, by decide⟩
  · show normalizeTime ⟨h, ms, some Meridiem.pm⟩ = _
    by_cases h12 : h = 12 <;> simp [normalizeTime, h12]
  · by_cases h12 : h = 12 <;> simp [normalizeTime, h12]
  · simp [normalizeTime]

/-! ## C8: determinism up to identifiers -/

/-- The identifier-free content of an event: title, date, start and end
time. -/
def eraseEvent (e : CalendarEvent) : String × JSDate × Option String × Option String :=
  (e.title, e.date, e.startTime, e.endTime)

theorem any_map_general {α β : Type} (l : List α) (f : α → β) (p : β → Bool) :
    (l.map f).any p = l.any (fun a => p (f a)) := by
  induction l with
  | nil => rfl
  | cons a l ih => simp only [List.map_cons, List.any_cons, ih]

theorem isDuplicateEvent_congr (l₁ l₂ : List CalendarEvent)
    (h : l₁.map eraseEvent = l₂.map eraseEvent)
    (day actualMonth actualYear : Int) (t : String) :
    isDuplicateEvent l₁ day actualMonth actualYear t =
      isDuplicateEvent l₂ day actualMonth actualYear t := by
  have key : ∀ l : List CalendarEvent,
      isDuplicateEvent l day actualMonth actualYear t =
        (l.map eraseEvent).any (fun p =>
          p.2.1.day == day && p.2.1.month0 == actualMonth - 1 &&
          p.2.1.year == actualYear && p.1 == t) := by
    intro l
    rw [any_map_general]
    rfl
  rw [key, key, h]

theorem eraseEvent_buildEvent (gen₁ gen₂ : Nat → String) (k₁ k₂ : Nat)
    (day actualMonth actualYear : Int) (t : String) :
    eraseEvent (buildEvent gen₁ k₁ day actualMonth actualYear t) =
      eraseEvent (buildEvent gen₂ k₂ day actualMonth actualYear t) := by
  unfold buildEvent
  cases extractTimeFromText t with
  | none => rfl
  | some p => rfl

theorem finishEvent_erase_congr (gen₁ gen₂ : Nat → String) (st₁ st₂ : ParseState)
    (tr2 : TrackState) (day : Int) (ya : Int × Int) (t : String)
    (he : st₁.events.map eraseEvent = st₂.events.map eraseEvent)
    (hn : st₁.nextId = st₂.nextId) :
    (finishEvent gen₁ st₁ tr2 day ya t).track = (finishEvent gen₂ st₂ tr2 day ya t).track ∧
    (finishEvent gen₁ st₁ tr2 day ya t).events.map eraseEvent =
      (finishEvent gen₂ st₂ tr2 day ya t).events.map eraseEvent ∧
    (finishEvent gen₁ st₁ tr2 day ya t).nextId = (finishEvent gen₂ st₂ tr2 day ya t).nextId := by
  unfold finishEvent
  by_cases h0 : t = ""
  · rw [if_pos h0, if_pos h0]
    exact ⟨rfl, he, hn⟩
  · rw [if_neg h0, if_neg h0,
      isDuplicateEvent_congr st₁.events st₂.events he day ya.2 ya.1 t]
    by_cases h1 : isDuplicateEvent st₂.events day ya.2 ya.1 t = true
    · rw [if_pos h1, if_pos h1]
      exact ⟨rfl, he, hn⟩
    · rw [if_neg h1, if_neg h1]
      refine ⟨rfl, ?_, by rw [hn]⟩
      simp only [List.map_append, he, hn, List.map_cons, List.map_nil]
      rw [eraseEvent_buildEvent gen₁ gen₂ st₂.nextId st₂.nextId]

theorem parseStep_erase_congr (gen₁ gen₂ : Nat → String) (ct : CalendarType)
    (year month daysInMonth : Int) (sorted : List OCRResult)
    (weekMap : List (Nat × DateInfo)) (i : Nat) (st₁ st₂ : ParseState)
    (ht : st₁.track = st₂.track)
    (he : st₁.events.map eraseEvent = st₂.events.map eraseEvent)
    (hn : st₁.nextId = st₂.nextId) :
    (parseStep gen₁ ct year month daysInMonth sorted weekMap st₁ i).track =
      (parseStep gen₂ ct year month daysInMonth sorted weekMap st₂ i).track ∧
    (parseStep gen₁ ct year month daysInMonth sorted weekMap st₁ i).events.map eraseEvent =
      (parseStep gen₂ ct year month daysInMonth sorted weekMap st₂ i).events.map eraseEvent ∧
    (parseStep gen₁ ct year month daysInMonth sorted weekMap st₁ i).nextId =
      (parseStep gen₂ ct year month daysInMonth sorted weekMap st₂ i).nextId := by
  cases hg : sorted.get? i with
  | none => simp only [parseStep, hg]; exact ⟨ht, he, hn⟩
  | some r =>
    cases hd : dayTokenNum r.text with
    | none => simp only [parseStep, hg, hd]; exact ⟨ht, he, hn⟩
    | some dn =>
      by_cases hday : ((dn : Int) < 1 ∨ 31 < (dn : Int))
      · simp only [parseStep, hg, hd, if_pos hday]
        exact ⟨ht, he, hn⟩
      · cases hl : lookupDateInfo weekMap i with
        | none =>
          simp only [parseStep, hg, hd, if_neg hday, hl]
          exact ⟨ht, he, hn⟩
        | some dateInfo =>
          simp only [parseStep, hg, hd, if_neg hday, hl, ht]
          exact finishEvent_erase_congr gen₁ gen₂ st₁ st₂ _ _ _ _ he hn

theorem foldl_parseStep_erase_congr (gen₁ gen₂ : Nat → String) (ct : CalendarType)
    (year month daysInMonth : Int) (sorted : List OCRResult)
    (weekMap : List (Nat × DateInfo)) (idxs : List Nat) (st₁ st₂ : ParseState)
    (ht : st₁.track = st₂.track)
    (he : st₁.events.map eraseEvent = st₂.events.map eraseEvent)
    (hn : st₁.nextId = st₂.nextId) :
    (idxs.foldl (parseStep gen₁ ct year month daysInMonth sorted weekMap) st₁).track =
      (idxs.foldl (parseStep gen₂ ct year month daysInMonth sorted weekMap) st₂).track ∧
    (idxs.foldl (parseStep gen₁ ct year month daysInMonth sorted weekMap) st₁).events.map
        eraseEvent =
      (idxs.foldl (parseStep gen₂ ct year month daysInMonth sorted weekMap) st₂).events.map
        eraseEvent ∧
    (idxs.foldl (parseStep gen₁ ct year month daysInMonth sorted weekMap) st₁).nextId =
      (idxs.foldl (parseStep gen₂ ct year month daysInMonth sorted weekMap) st₂).nextId := by
  induction idxs generalizing st₁ st₂ with
  | nil => exact ⟨ht, he, hn⟩
  | cons i idxs ih =>
    obtain ⟨ht', he', hn'⟩ := parseStep_erase_congr gen₁ gen₂ ct year month daysInMonth
      sorted weekMap i st₁ st₂ ht he hn
    exact ih _ _ ht' he' hn'

/-- C8: re-running `parseCalendarFromOCR` on the same fragment list, year,
month and mode yields event lists that agree pairwise on date, title, start
time and end time; only the generated identifiers (modelled by the generator
argument) may differ between runs. -/
theorem c8_deterministic_up_to_ids (gen₁ gen₂ : Nat → String)
    (ocrResults : List OCRResult) (year month : Int) (ct : CalendarType) :
    (parseCalendarFromOCR gen₁ ocrResults year month ct).events.map eraseEvent =
      (parseCalendarFromOCR gen₂ ocrResults year month ct).events.map eraseEvent := by
  unfold parseCalendarFromOCR
  exact (foldl_parseStep_erase_congr gen₁ gen₂ ct year month
    (jsDaysInMonth year month) (sortResults ocrResults)
    (assignWeekIndices (sortResults ocrResults))
    (List.range (sortResults ocrResults).length)
    initParseState initParseState rfl rfl rfl).2.1

/-! ## C2: the month-offset bound (amended) -/

/-- Months since year 0 of a normalized date — the linearization in which
month-offset bounds are stated. -/
def monthLin (d : JSDate) : Int := 12 * d.year + d.month0

theorem daysInG_bounds (y m0 : Int) : 28 ≤ daysInG y m0 ∧ daysInG y m0 ≤ 31 := by
  unfold daysInG
  split_ifs <;> omega

theorem normDay_monthLin (f : Nat) (hf : 2 ≤ f) (y m0 d : Int)
    (hm0 : 0 ≤ m0) (hm1 : m0 ≤ 11) (hd1 : 1 ≤ d) (hd31 : d ≤ 31) :
    monthLin (normDay f y m0 d) = 12 * y + m0 ∨
    monthLin (normDay f y m0 d) = 12 * y + m0 + 1 := by
  obtain ⟨f1, rfl⟩ : ∃ f1, f = f1 + 1 := ⟨f - 1, by omega⟩
  obtain ⟨f2, rfl⟩ : ∃ f2, f1 = f2 + 1 := ⟨f1 - 1, by omega⟩
  have hb := daysInG_bounds y m0
  simp only [normDay, if_neg (by omega : ¬d < 1)]
  by_cases hover : daysInG y m0 < d
  · rw [if_pos hover]
    have hb' : 28 ≤ daysInG (if m0 = 11 then y + 1 else y) (if m0 = 11 then 0 else m0 + 1) ∧
        daysInG (if m0 = 11 then y + 1 else y) (if m0 = 11 then 0 else m0 + 1) ≤ 31 :=
      daysInG_bounds _ _
    simp only [normDay, if_neg (by omega : ¬d - daysInG y m0 < 1),
      if_neg (by omega : ¬daysInG (if m0 = 11 then y + 1 else y)
        (if m0 = 11 then 0 else m0 + 1) < d - daysInG y m0)]
    right
    unfold monthLin
    split_ifs with h11 <;> simp <;> omega
  · rw [if_neg hover]
    left
    rfl

theorem mkJSDate_monthLin (y mi d : Int) (hd1 : 1 ≤ d) (hd31 : d ≤ 31) :
    monthLin (mkJSDate y mi d) = 12 * y + mi ∨
    monthLin (mkJSDate y mi d) = 12 * y + mi + 1 := by
  unfold mkJSDate
  rcases normDay_monthLin 60 (by norm_num) (y + mi / 12) (mi % 12) d
      (by omega) (by omega) hd1 hd31 with h | h
  · rw [h]
    left
    omega
  · rw [h]
    right
    omega

theorem ite_fst_bound {c : Prop} [Decidable c] {a b : Int × TrackState}
    (ha : -1 ≤ a.1 ∧ a.1 ≤ 1) (hb : -1 ≤ b.1 ∧ b.1 ≤ 1) :
    -1 ≤ (if c then a else b).1 ∧ (if c then a else b).1 ≤ 1 := by
  by_cases h : c
  · rw [if_pos h]; exact ha
  · rw [if_neg h]; exact hb

theorem computeMonthOffset_bound (st : TrackState) (day weekIndex : Int)
    (isNewWeek : Bool) (daysInMonth : Int) :
    -1 ≤ (computeMonthOffset st day weekIndex isNewWeek daysInMonth).1 ∧
    (computeMonthOffset st day weekIndex isNewWeek daysInMonth).1 ≤ 1 := by
  unfold computeMonthOffset
  dsimp only
  repeat' first
  | apply ite_fst_bound
  | exact ⟨by norm_num, by norm_num⟩

theorem applyMonthOffset_lin (year month off : Int) :
    12 * (applyMonthOffset year month off).1 + ((applyMonthOffset year month off).2 - 1) =
      12 * year + (month + off) - 1 := by
  unfold applyMonthOffset
  dsimp only
  split_ifs <;> omega

theorem buildEvent_date (gen : Nat → String) (k : Nat)
    (day actualMonth actualYear : Int) (t : String) :
    (buildEvent gen k day actualMonth actualYear t).date =
      mkJSDate actualYear (actualMonth - 1) day := by
  unfold buildEvent
  cases extractTimeFromText t with
  | none => rfl
  | some p => rfl

/-- Every event produced by one loop iteration either was already present or
is the `buildEvent` of the current fragment, with a day token in `1..31`, a
month offset in `-1..1`, and the title resolved for this fragment. -/
theorem finishEvent_events_mem (gen : Nat → String) (st : ParseState)
    (tr2 : TrackState) (day : Int) (ya : Int × Int) (t : String) :
    ∀ e ∈ (finishEvent gen st tr2 day ya t).events,
      e ∈ st.events ∨ e = buildEvent gen st.nextId day ya.2 ya.1 t := by
  intro e he
  unfold finishEvent at he
  by_cases h0 : t = ""
  · rw [if_pos h0] at he
    exact Or.inl he
  · rw [if_neg h0] at he
    by_cases h1 : isDuplicateEvent st.events day ya.2 ya.1 t = true
    · rw [if_pos h1] at he
      exact Or.inl he
    · rw [if_neg h1] at he
      rcases List.mem_append.1 he with h | h
      · exact Or.inl h
      · exact Or.inr (List.mem_singleton.1 h)

/-- Every event produced by one loop iteration either was already present or
is the `buildEvent` of the current fragment, with a day token in `1..31`, a
month offset in `-1..1`, and the title resolved for this fragment. -/
theorem parseStep_events_characterization (gen : Nat → String) (ct : CalendarType)
    (year month daysInMonth : Int) (sorted : List OCRResult)
    (weekMap : List (Nat × DateInfo)) (st : ParseState) (i : Nat) :
    ∀ e ∈ (parseStep gen ct year month daysInMonth sorted weekMap st i).events,
      e ∈ st.events ∨
      ∃ r, sorted.get? i = some r ∧
      ∃ dn : Nat, dayTokenNum r.text = some dn ∧ 1 ≤ (dn : Int) ∧ (dn : Int) ≤ 31 ∧
      ∃ off : Int, -1 ≤ off ∧ off ≤ 1 ∧
      ∃ k : Nat,
        e = buildEvent gen k (dn : Int) (applyMonthOffset year month off).2
              (applyMonthOffset year month off).1 (resolveTitle ct sorted i r) := by
  intro e he
  rcases hg : sorted.get? i with _ | r
  · simp only [parseStep, hg] at he
    exact Or.inl he
  · rcases hd : dayTokenNum r.text with _ | dn
    · simp only [parseStep, hg, hd] at he
      exact Or.inl he
    · by_cases hday : ((dn : Int) < 1 ∨ 31 < (dn : Int))
      · simp only [parseStep, hg, hd, if_pos hday] at he
        exact Or.inl he
      · rcases hl : lookupDateInfo weekMap i with _ | dateInfo
        · simp only [parseStep, hg, hd, if_neg hday, hl] at he
          exact Or.inl he
        · simp only [parseStep, hg, hd, if_neg hday, hl] at he
          rcases finishEvent_events_mem _ _ _ _ _ _ e he with h | h
          · exact Or.inl h
          · refine Or.inr ⟨r, rfl, dn, hd, by omega, by omega, ?_⟩
            refine ⟨_, ?_, ?_, st.nextId, h⟩
            · exact (computeMonthOffset_bound _ _ _ _ _).1
            · exact (computeMonthOffset_bound _ _ _ _ _).2

/-- Preservation of an event property along the fragment loop. -/
theorem foldl_parseStep_pres (P : CalendarEvent → Prop) (gen : Nat → String)
    (ct : CalendarType) (year month daysInMonth : Int) (sorted : List OCRResult)
    (weekMap : List (Nat × DateInfo))
    (hstep : ∀ st' i, (∀ e ∈ st'.events, P e) →
      ∀ e ∈ (parseStep gen ct year month daysInMonth sorted weekMap st' i).events, P e)
    (idxs : List Nat) (st : ParseState) (h0 : ∀ e ∈ st.events, P e) :
    ∀ e ∈ (idxs.foldl (parseStep gen ct year month daysInMonth sorted weekMap) st).events,
      P e := by
  induction idxs generalizing st with
  | nil => exact h0
  | cons i idxs ih => exact ih _ (hstep st i h0)

/-- C2, amended.  Every produced event's `(year, month)` differs from the
requested pair by at most one month in either direction — except that when
the extracted day number exceeds the length of the already-offset target
month, the JavaScript `Date` day normalization carries the event one
further month forward, so the difference lies in `-1 .. +2` months (year
rollover included, measured on the month linearization `12*year+month0`);
the counterexample shows the `+2` case is reachable. -/
theorem c2_month_offset_bound_amended (gen : Nat → String)
    (ocrResults : List OCRResult) (year month : Int) (ct : CalendarType) :
    ∀ e ∈ (parseCalendarFromOCR gen ocrResults year month ct).events,
      -1 ≤ monthLin e.date - (12 * year + (month - 1)) ∧
      monthLin e.date - (12 * year + (month - 1)) ≤ 2 := by
  intro e he
  unfold parseCalendarFromOCR at he
  refine foldl_parseStep_pres
    (fun ev => -1 ≤ monthLin ev.date - (12 * year + (month - 1)) ∧
      monthLin ev.date - (12 * year + (month - 1)) ≤ 2)
    gen ct year month _ _ _ ?_ _ _ (by intro e h; cases h) e he
  intro st' i hP e' he'
  rcases parseStep_events_characterization gen ct year month _ _ _ st' i e' he' with
    h | ⟨r, _, dn, _, hdn1, hdn31, off, ho1, ho2, k, hev⟩
  · exact hP e' h
  · subst hev
    rw [buildEvent_date]
    have hlin := applyMonthOffset_lin year month off
    rcases mkJSDate_monthLin (applyMonthOffset year month off).1
        ((applyMonthOffset year month off).2 - 1) (dn : Int) hdn1 hdn31 with h' | h' <;>
      constructor <;> omega

theorem c2_month_offset_bound_amended_witness :
    -1 ≤ monthLin (⟨2024, 1, 15⟩ : JSDate) - (12 * 2024 + (2 - 1)) ∧
    monthLin (⟨2024, 1, 15⟩ : JSDate) - (12 * 2024 + (2 - 1)) ≤ 2 :=
  c2_month_offset_bound_amended genX [mkFrag "15 Meeting" 200 250] 2024 2
    CalendarType.standard ⟨"event-15-2-2024-x", "Meeting", ⟨2024, 1, 15⟩, none, none⟩
    (by decide)

/-! ## C4: jojo-mode titles (amended) -/

theorem mem_jsMerge (le : OCRResult → OCRResult → Bool) (f : Nat)
    (xs ys : List OCRResult) (a : OCRResult) :
    a ∈ jsMerge le f xs ys ↔ a ∈ xs ∨ a ∈ ys := by
  induction f generalizing xs ys with
  | zero => simp [jsMerge]
  | succ f ih =>
    cases xs with
    | nil => simp [jsMerge]
    | cons x xs =>
      cases ys with
      | nil => simp [jsMerge]
      | cons y ys =>
        by_cases h : le x y
        · simp only [jsMerge, if_pos h, List.mem_cons, ih]
          tauto
        · simp only [jsMerge, if_neg h, List.mem_cons, ih]
          tauto

theorem jsMergeSort_zero (le : OCRResult → OCRResult → Bool) (l : List OCRResult) :
    jsMergeSort le 0 l = l := by
  match l with
  | [] => rfl
  | [a] => rfl
  | a :: b :: rest => rfl

theorem mem_jsMergeSort (le : OCRResult → OCRResult → Bool) (f : Nat)
    (l : List OCRResult) (a : OCRResult) :
    a ∈ jsMergeSort le f l ↔ a ∈ l := by
  induction f generalizing l with
  | zero => rw [jsMergeSort_zero]
  | succ f ih =>
    match l with
    | [] => rfl
    | [b] => rfl
    | b :: c :: rest =>
      rw [jsMergeSort, mem_jsMerge, ih, ih, ← List.mem_append,
        List.take_append_drop]

theorem mem_sortResults (l : List OCRResult) (a : OCRResult) :
    a ∈ sortResults l ↔ a ∈ l :=
  mem_jsMergeSort leResults l.length l a

/-- The title the jojo mode derives from a fragment's own text: `nightshift`
on a C or moon glyph, else the text remaining after the day token (when it
cleans to something non-empty), else `dayshift`. -/
def jojoTitleOf (text : String) : String :=
  let afterDate := jsTrim (stripFirstDay text)
  let t0 := if 1 < afterDate.toList.length then cleanEventText afterDate else ""
  if hasNightIndicator text then "nightshift"
  else if t0 ≠ "" then t0 else "dayshift"

/-- The title stored on the event: the resolved title with matched time
substrings stripped whenever a time was extracted from it. -/
def finalTitle (t : String) : String :=
  match extractTimeFromText t with
  | none => t
  | some _ => stripTimesAndTrim t

theorem buildEvent_title (gen : Nat → String) (k : Nat)
    (day actualMonth actualYear : Int) (t : String) :
    (buildEvent gen k day actualMonth actualYear t).title = finalTitle t := by
  unfold buildEvent finalTitle
  cases extractTimeFromText t with
  | none => rfl
  | some p => rfl

/-- In jojo mode the resolved title depends on the fragment's own text
alone: the adjacent-fragment lookup is guarded by the standard-mode test. -/
theorem resolveTitle_jojo (sorted : List OCRResult) (i : Nat) (r : OCRResult) :
    resolveTitle CalendarType.jojo sorted i r = jojoTitleOf r.text := by
  unfold resolveTitle jojoTitleOf
  dsimp only
  simp only [show (CalendarType.jojo = CalendarType.standard) = False from by simp,
    false_and, and_false, if_false, if_true]

/-- C4, amended.  In jojo (shift-tracking) mode every produced event's title
is a function of its own fragment's text alone (so the adjacent-fragment
lookup plays no role): `nightshift` exactly when the text contains a C
(case-insensitively) or a moon glyph, otherwise the title extracted from the
fragment's own remaining text when there is one (time-stripped), and
`dayshift` only when there is none. -/
theorem c4_jojo_title_amended (gen : Nat → String) (ocrResults : List OCRResult)
    (year month : Int) :
    ∀ e ∈ (parseCalendarFromOCR gen ocrResults year month CalendarType.jojo).events,
      ∃ r, r ∈ ocrResults ∧ e.title = finalTitle (jojoTitleOf r.text) ∧
        (hasNightIndicator r.text = true → e.title = "nightshift") ∧
        (hasNightIndicator r.text = false → jojoTitleOf r.text = "dayshift" →
          e.title = "dayshift") := by
  intro e he
  unfold parseCalendarFromOCR at he
  refine foldl_parseStep_pres
    (fun ev => ∃ r, r ∈ ocrResults ∧ ev.title = finalTitle (jojoTitleOf r.text) ∧
      (hasNightIndicator r.text = true → ev.title = "nightshift") ∧
      (hasNightIndicator r.text = false → jojoTitleOf r.text = "dayshift" →
        ev.title = "dayshift"))
    gen CalendarType.jojo year month _ _ _ ?_ _ _ (by intro e h; cases h) e he
  intro st' i hP e' he'
  rcases parseStep_events_characterization gen CalendarType.jojo year month _ _ _
      st' i e' he' with h | ⟨r, hr, dn, _, _, _, off, _, _, k, hev⟩
  · exact hP e' h
  · refine ⟨r, (mem_sortResults ocrResults r).1 (List.get?_mem hr), ?_, ?_, ?_⟩
    · rw [hev, buildEvent_title, resolveTitle_jojo]
    · intro hnight
      rw [hev, buildEvent_title, resolveTitle_jojo]
      unfold jojoTitleOf
      rw [if_pos hnight]
      decide
    · intro _ hday
      rw [hev, buildEvent_title, resolveTitle_jojo, hday]
      decide

theorem c4_jojo_title_amended_witness :
    ∃ r, r ∈ [mkFrag "7 Work" 10 0] ∧ "Work" = finalTitle (jojoTitleOf r.text) ∧
      (hasNightIndicator r.text = true → "Work" = "nightshift") ∧
      (hasNightIndicator r.text = false → jojoTitleOf r.text = "dayshift" →
        "Work" = "dayshift") :=
  c4_jojo_title_amended genX [mkFrag "7 Work" 10 0] 2024 3
    ⟨"event-7-3-2024-x", "Work", ⟨2024, 2, 7⟩, none, none⟩ (by decide)

/-! ## C9: canonical ordering (amended) -/

theorem leResults_total (a b : OCRResult) :
    leResults a b = true ∨ leResults b a = true := by
  unfold leResults cmpResults jsAbs
  simp only [decide_eq_true_eq]
  split_ifs <;> omega

theorem jsMerge_length (le : OCRResult → OCRResult → Bool) (f : Nat)
    (xs ys : List OCRResult) :
    (jsMerge le f xs ys).length = xs.length + ys.length := by
  induction f generalizing xs ys with
  | zero => simp [jsMerge]
  | succ f ih =>
    cases xs with
    | nil => simp [jsMerge]
    | cons x xs =>
      cases ys with
      | nil => simp [jsMerge]
      | cons y ys =>
        by_cases h : le x y
        · simp only [jsMerge, if_pos h, List.length_cons, ih]
          omega
        · simp only [jsMerge, if_neg h, List.length_cons, ih]
          omega

theorem jsMergeSort_length (le : OCRResult → OCRResult → Bool) (f : Nat)
    (l : List OCRResult) :
    (jsMergeSort le f l).length = l.length := by
  induction f generalizing l with
  | zero => rw [jsMergeSort_zero]
  | succ f ih =>
    match l with
    | [] => rfl
    | [b] => rfl
    | b :: c :: rest =>
      rw [jsMergeSort, jsMerge_length, ih, ih, List.length_take, List.length_drop]
      have := List.length_take_le ((b :: c :: rest).length + 1) (b :: c :: rest)
      simp only [List.length_cons]
      omega

/-- Merging two sorted lists under the fragment comparator yields a sorted
list, provided the comparator is transitive on the ambient list `L` (it is
always total). -/
theorem jsMerge_pairwise (L : List OCRResult)
    (Ht : ∀ a ∈ L, ∀ b ∈ L, ∀ c ∈ L,
      leResults a b = true → leResults b c = true → leResults a c = true)
    (f : Nat) (xs ys : List OCRResult)
    (hxs : ∀ a ∈ xs, a ∈ L) (hys : ∀ a ∈ ys, a ∈ L)
    (hx : xs.Pairwise (leResults · · = true)) (hy : ys.Pairwise (leResults · · = true))
    (hf : xs.length + ys.length ≤ f) :
    (jsMerge leResults f xs ys).Pairwise (leResults · · = true) := by
  induction f generalizing xs ys with
  | zero =>
    have : xs = [] := by
      cases xs with
      | nil => rfl
      | cons a l => simp at hf
    subst this
    simpa [jsMerge] using hy
  | succ f ih =>
    cases xs with
    | nil => simpa [jsMerge] using hy
    | cons x xs =>
      cases ys with
      | nil => simpa [jsMerge] using hx
      | cons y ys =>
        by_cases h : leResults x y
        · rw [jsMerge, if_pos h]
          refine List.pairwise_cons.2 ⟨?_, ?_⟩
          · intro z hz
            rcases (mem_jsMerge _ _ _ _ _).1 hz with hzx | hzy
            · exact List.rel_of_pairwise_cons hx hzx
            · rcases List.mem_cons.1 hzy with rfl | hzys
              · exact h
              · exact Ht x (hxs x (by simp)) y (hys y (by simp)) z
                  (hys z (by simp [hzys])) h (List.rel_of_pairwise_cons hy hzys)
          · refine ih xs (y :: ys) (fun a ha => hxs a (by simp [ha]))
              hys (List.Pairwise.of_cons hx) hy ?_
            simp only [List.length_cons] at hf ⊢
            omega
        · rcases leResults_total x y with h' | h'
          · exact absurd h' h
          · rw [jsMerge, if_neg h]
            refine List.pairwise_cons.2 ⟨?_, ?_⟩
            · intro z hz
              rcases (mem_jsMerge _ _ _ _ _).1 hz with hzx | hzy
              · rcases List.mem_cons.1 hzx with rfl | hzxs
                · exact h'
                · exact Ht y (hys y (by simp)) x (hxs x (by simp)) z
                    (hxs z (by simp [hzxs])) h' (List.rel_of_pairwise_cons hx hzxs)
              · exact List.rel_of_pairwise_cons hy hzy
            · refine ih (x :: xs) ys hxs (fun a ha => hys a (by simp [ha]))
                hx (List.Pairwise.of_cons hy) ?_
              simp only [List.length_cons] at hf ⊢
              omega

/-- The fueled merge sort is sorted under the comparator whenever the
comparator is transitive on the ambient list. -/
theorem jsMergeSort_pairwise (L : List OCRResult)
    (Ht : ∀ a ∈ L, ∀ b ∈ L, ∀ c ∈ L,
      leResults a b = true → leResults b c = true → leResults a c = true)
    (f : Nat) (l : List OCRResult) (hl : ∀ a ∈ l, a ∈ L) (hf : l.length ≤ f) :
    (jsMergeSort leResults f l).Pairwise (leResults · · = true) := by
  induction f generalizing l with
  | zero =>
    have : l = [] := by
      cases l with
      | nil => rfl
      | cons a t => simp at hf
    subst this
    simp [jsMergeSort_zero]
  | succ f ih =>
    match l, hl, hf with
    | [], _, _ => simp [jsMergeSort]
    | [b], _, _ => simp [jsMergeSort]
    | b :: c :: rest, hl, hf =>
      rw [jsMergeSort]
      have hn : (b :: c :: rest).length = rest.length + 2 := by simp
      refine jsMerge_pairwise L Ht _ _ _
        (fun a ha => hl a (List.take_subset _ _ ((mem_jsMergeSort _ _ _ _).1 ha)))
        (fun a ha => hl a (List.drop_subset _ _ ((mem_jsMergeSort _ _ _ _).1 ha)))
        (ih _ (fun a ha => hl a (List.take_subset _ _ ha)) ?_)
        (ih _ (fun a ha => hl a (List.drop_subset _ _ ha)) ?_) ?_
      · rw [List.length_take]
        simp only [List.length_cons] at hf ⊢
        omega
      · rw [List.length_drop]
        simp only [List.length_cons] at hf ⊢
        omega
      · rw [jsMergeSort_length, jsMergeSort_length, List.length_take, List.length_drop]
        simp only [List.length_cons] at hf ⊢
        omega

theorem jsMerge_head_cases (f : Nat) (xs ys : List OCRResult) :
    (jsMerge leResults f xs ys).head? = xs.head? ∨
    (jsMerge leResults f xs ys).head? = ys.head? := by
  cases f with
  | zero =>
    cases xs with
    | nil => right; simp [jsMerge]
    | cons x xs => left; simp [jsMerge]
  | succ f =>
    cases xs with
    | nil => right; simp [jsMerge]
    | cons x xs =>
      cases ys with
      | nil => left; simp [jsMerge]
      | cons y ys =>
        by_cases h : leResults x y
        · left; simp [jsMerge, if_pos h]
        · right; simp [jsMerge, if_neg h]

/-- Merging two adjacently sorted lists under the fragment comparator yields
an adjacently sorted list; only totality of the comparator is needed, not
transitivity. -/
theorem jsMerge_chain (f : Nat) (xs ys : List OCRResult)
    (hx : xs.Chain' (leResults · · = true)) (hy : ys.Chain' (leResults · · = true))
    (hf : xs.length + ys.length ≤ f) :
    (jsMerge leResults f xs ys).Chain' (leResults · · = true) := by
  induction f generalizing xs ys with
  | zero =>
    have hxe : xs = [] := by
      cases xs with
      | nil => rfl
      | cons a l => simp at hf
    subst hxe
    have hye : ys = [] := by
      cases ys with
      | nil => rfl
      | cons a l => simp at hf
    subst hye
    simp [jsMerge]
  | succ f ih =>
    cases xs with
    | nil => simpa [jsMerge] using hy
    | cons x xs =>
      cases ys with
      | nil => simpa [jsMerge] using hx
      | cons y ys =>
        by_cases h : leResults x y
        · rw [jsMerge, if_pos h]
          refine List.chain'_cons'.2 ⟨?_, ?_⟩
          · intro z hz
            rcases jsMerge_head_cases f xs (y :: ys) with hh | hh
            · rw [hh] at hz
              exact (List.chain'_cons'.1 hx).1 z hz
            · rw [hh] at hz
              simp only [List.head?_cons, Option.mem_def, Option.some.injEq] at hz
              subst hz
              exact h
          · refine ih xs (y :: ys) (List.chain'_cons'.1 hx).2 hy ?_
            simp only [List.length_cons] at hf ⊢
            omega
        · rcases leResults_total x y with h' | h'
          · exact absurd h' h
          · rw [jsMerge, if_neg h]
            refine List.chain'_cons'.2 ⟨?_, ?_⟩
            · intro z hz
              rcases jsMerge_head_cases f (x :: xs) ys with hh | hh
              · rw [hh] at hz
                simp only [List.head?_cons, Option.mem_def, Option.some.injEq] at hz
                subst hz
                exact h'
              · rw [hh] at hz
                exact (List.chain'_cons'.1 hy).1 z hz
            · refine ih (x :: xs) ys hx (List.chain'_cons'.1 hy).2 ?_
              simp only [List.length_cons] at hf ⊢
              omega

/-- The fueled merge sort is adjacently sorted under the comparator, for
every input: no transitivity assumption. -/
theorem jsMergeSort_chain (f : Nat) (l : List OCRResult) (hf : l.length ≤ f) :
    (jsMergeSort leResults f l).Chain' (leResults · · = true) := by
  induction f generalizing l with
  | zero =>
    have : l = [] := by
      cases l with
      | nil => rfl
      | cons a t => simp at hf
    subst this
    simp [jsMergeSort_zero]
  | succ f ih =>
    match l, hf with
    | [], _ => simp [jsMergeSort]
    | [b], _ => simp [jsMergeSort]
    | b :: c :: rest, hf =>
      rw [jsMergeSort]
      refine jsMerge_chain _ _ _ (ih _ ?_) (ih _ ?_) ?_
      · rw [List.length_take]
        simp only [List.length_cons] at hf ⊢
        omega
      · rw [List.length_drop]
        simp only [List.length_cons] at hf ⊢
        omega
      · rw [jsMergeSort_length, jsMergeSort_length, List.length_take, List.length_drop]
        simp only [List.length_cons] at hf ⊢
        omega

/-- C9, amended.  The canonical ordering step is comparator-correct on each
adjacent pair of its output, unconditionally: for any two consecutive
fragments of the sorted list, a Y-difference of at least 50 pixels means the
earlier one is strictly higher on the page, and a Y-difference under 50
pixels means the earlier one's X is not larger.  Because the comparator is
not transitive, this adjacent-pair guarantee does not extend to arbitrary
pairs of the output: the counterexample exhibits a non-adjacent inverted
pair 80 pixels apart in Y. -/
theorem c9_canonical_order_amended (ocrResults : List OCRResult) :
    (sortResults ocrResults).Chain' (fun a b =>
      (50 ≤ jsAbs (a.region.y - b.region.y) → a.region.y < b.region.y) ∧
      (jsAbs (a.region.y - b.region.y) < 50 → a.region.x ≤ b.region.x)) := by
  unfold sortResults
  refine (jsMergeSort_chain ocrResults.length ocrResults le_rfl).imp ?_
  intro a b h
  unfold leResults cmpResults at h
  simp only [decide_eq_true_eq] at h
  unfold jsAbs at h ⊢
  constructor <;> intro h' <;> split_ifs at h h' <;> omega

/-! ## C1: the merge step (amended) -/

theorem mergePass_true (regions : List Region) (js : List Nat) (c : Region)
    (u : Finset Nat) :
    (mergePass regions js c u true).2.2 = true := by
  induction js generalizing c u with
  | nil => rfl
  | cons j js ih =>
    rw [mergePass]
    by_cases hj : j ∈ u
    · rw [if_pos hj]
      exact ih c u
    · rw [if_neg hj]
      by_cases ho : regionsOverlap c (regions.getD j default)
      · rw [if_pos ho]
        exact ih _ _
      · rw [if_neg ho]
        exact ih c u

theorem mergePass_subset (regions : List Region) (js : List Nat) (c : Region)
    (u : Finset Nat) (m : Bool) :
    u ⊆ (mergePass regions js c u m).2.1 := by
  induction js generalizing c u m with
  | nil => exact Finset.Subset.refl u
  | cons j js ih =>
    rw [mergePass]
    by_cases hj : j ∈ u
    · rw [if_pos hj]
      exact ih c u m
    · rw [if_neg hj]
      by_cases ho : regionsOverlap c (regions.getD j default)
      · rw [if_pos ho]
        exact (Finset.subset_insert j u).trans (ih _ _ _)
      · rw [if_neg ho]
        exact ih c u m

theorem mergePass_mem (regions : List Region) (js : List Nat) (c : Region)
    (u : Finset Nat) (m : Bool) :
    ∀ j ∈ (mergePass regions js c u m).2.1, j ∈ u ∨ j ∈ js := by
  induction js generalizing c u m with
  | nil => exact fun j hj => Or.inl hj
  | cons j js ih =>
    intro j' hj'
    rw [mergePass] at hj'
    by_cases hj : j ∈ u
    · rw [if_pos hj] at hj'
      rcases ih c u m j' hj' with h | h
      · exact Or.inl h
      · exact Or.inr (List.mem_cons_of_mem _ h)
    · rw [if_neg hj] at hj'
      by_cases ho : regionsOverlap c (regions.getD j default)
      · rw [if_pos ho] at hj'
        rcases ih _ _ _ j' hj' with h | h
        · rcases Finset.mem_insert.1 h with rfl | h
          · exact Or.inr (List.mem_cons_self _ _)
          · exact Or.inl h
        · exact Or.inr (List.mem_cons_of_mem _ h)
      · rw [if_neg ho] at hj'
        rcases ih c u m j' hj' with h | h
        · exact Or.inl h
        · exact Or.inr (List.mem_cons_of_mem _ h)

theorem mergePass_of_false (regions : List Region) (js : List Nat) (c : Region)
    (u : Finset Nat) (m : Bool)
    (hres : (mergePass regions js c u m).2.2 = false) :
    m = false ∧ (mergePass regions js c u m).1 = c ∧
    (mergePass regions js c u m).2.1 = u ∧
    ∀ j ∈ js, j ∉ u → regionsOverlap c (regions.getD j default) = false := by
  induction js generalizing c u m with
  | nil =>
    refine ⟨hres, rfl, rfl, ?_⟩
    intro j hj
    cases hj
  | cons j js ih =>
    rw [mergePass] at hres ⊢
    by_cases hj : j ∈ u
    · rw [if_pos hj] at hres ⊢
      obtain ⟨hm, hc, hu, hall⟩ := ih c u m hres
      refine ⟨hm, hc, hu, ?_⟩
      intro j' hj' hju
      rcases List.mem_cons.1 hj' with rfl | h
      · exact absurd hj hju
      · exact hall j' h hju
    · rw [if_neg hj] at hres ⊢
      by_cases ho : regionsOverlap c (regions.getD j default)
      · rw [if_pos ho] at hres
        rw [mergePass_true] at hres
        cases hres
      · rw [if_neg ho] at hres ⊢
        obtain ⟨hm, hc, hu, hall⟩ := ih c u m hres
        refine ⟨hm, hc, hu, ?_⟩
        intro j' hj' hju
        rcases List.mem_cons.1 hj' with rfl | h
        · simpa using ho
        · exact hall j' h hju

theorem mergePass_card (regions : List Region) (n : Nat) (js : List Nat)
    (hjs : ∀ j ∈ js, j < n) (c : Region) (u : Finset Nat)
    (hres : (mergePass regions js c u false).2.2 = true) :
    (u.filter (· < n)).card < (((mergePass regions js c u false).2.1).filter (· < n)).card := by
  induction js generalizing c u with
  | nil => cases hres
  | cons j js ih =>
    rw [mergePass] at hres ⊢
    by_cases hj : j ∈ u
    · rw [if_pos hj] at hres ⊢
      exact ih (fun j' hj' => hjs j' (List.mem_cons_of_mem _ hj')) c u hres
    · rw [if_neg hj] at hres ⊢
      by_cases ho : regionsOverlap c (regions.getD j default)
      · rw [if_pos ho]
        have hsub : insert j u ⊆ (mergePass regions js (mergeTwoRegions c
            (regions.getD j default)) (insert j u) true).2.1 :=
          mergePass_subset regions js _ _ _
        have hcard : ((insert j u).filter (· < n)).card ≤
            (((mergePass regions js (mergeTwoRegions c (regions.getD j default))
              (insert j u) true).2.1).filter (· < n)).card :=
          Finset.card_le_card (Finset.filter_subset_filter _ hsub)
        have hins : ((insert j u).filter (· < n)).card = (u.filter (· < n)).card + 1 := by
          rw [Finset.filter_insert, if_pos (hjs j (List.mem_cons_self _ _))]
          exact Finset.card_insert_of_not_mem (fun hmem => hj (Finset.mem_of_mem_filter _ hmem))
        omega
      · rw [if_neg ho] at hres ⊢
        exact ih (fun j' hj' => hjs j' (List.mem_cons_of_mem _ hj')) c u hres

theorem filter_lt_card_le (u : Finset Nat) (n : Nat) : (u.filter (· < n)).card ≤ n := by
  have : u.filter (· < n) ⊆ Finset.range n := by
    intro j hj
    rw [Finset.mem_range]
    exact (Finset.mem_filter.1 hj).2
  simpa using Finset.card_le_card this

theorem mergeLoop_subset (regions : List Region) (fuel : Nat) (c : Region)
    (u : Finset Nat) : u ⊆ (mergeLoop regions fuel c u).2 := by
  induction fuel generalizing c u with
  | zero => exact Finset.Subset.refl u
  | succ fuel ih =>
    rw [mergeLoop]
    by_cases hm : (mergePass regions (List.range regions.length) c u false).2.2 = true
    · simp only [hm, if_true]
      exact (mergePass_subset regions _ c u false).trans (ih _ _)
    · simp only [Bool.not_eq_true] at hm
      simp only [hm, Bool.false_eq_true, if_false]
      obtain ⟨_, _, hu, _⟩ := mergePass_of_false regions _ c u false hm
      rw [hu]

theorem mergeLoop_mem (regions : List Region) (fuel : Nat) (c : Region)
    (u : Finset Nat) :
    ∀ j ∈ (mergeLoop regions fuel c u).2, j ∈ u ∨ j < regions.length := by
  induction fuel generalizing c u with
  | zero => exact fun j hj => Or.inl hj
  | succ fuel ih =>
    intro j hj
    rw [mergeLoop] at hj
    by_cases hm : (mergePass regions (List.range regions.length) c u false).2.2 = true
    · simp only [hm, if_true] at hj
      rcases ih _ _ j hj with h | h
      · rcases mergePass_mem regions _ c u false j h with h' | h'
        · exact Or.inl h'
        · exact Or.inr (List.mem_range.1 h')
      · exact Or.inr h
    · simp only [Bool.not_eq_true] at hm
      simp only [hm, Bool.false_eq_true, if_false] at hj
      obtain ⟨_, _, hu, _⟩ := mergePass_of_false regions _ c u false hm
      rw [hu] at hj
      exact Or.inl hj

/-- At the exit of the inner `while (mergedNew)` loop — which the fuel bound
`regions.length + 1` always reaches — the current box overlaps no unused
region. -/
theorem mergeLoop_post (regions : List Region) (fuel : Nat) (c : Region)
    (u : Finset Nat)
    (hfuel : regions.length + 1 ≤ fuel + (u.filter (· < regions.length)).card) :
    ∀ j, j < regions.length → j ∉ (mergeLoop regions fuel c u).2 →
      regionsOverlap (mergeLoop regions fuel c u).1 (regions.getD j default) = false := by
  induction fuel generalizing c u with
  | zero =>
    exfalso
    have := filter_lt_card_le u regions.length
    omega
  | succ fuel ih =>
    intro j hjn hju
    rw [mergeLoop] at hju ⊢
    by_cases hm : (mergePass regions (List.range regions.length) c u false).2.2 = true
    · simp only [hm, if_true] at hju ⊢
      have hcard := mergePass_card regions regions.length _
        (fun j' hj' => List.mem_range.1 hj') c u hm
      have hle := filter_lt_card_le
        ((mergePass regions (List.range regions.length) c u false).2.1) regions.length
      refine ih _ _ (le_trans hfuel ?_) j hjn hju
      rw [Nat.add_assoc]
      refine Nat.add_le_add_left ?_ fuel
      rw [Nat.add_comm]
      exact hcard
    · simp only [Bool.not_eq_true] at hm
      simp only [hm, Bool.false_eq_true, if_false] at hju ⊢
      obtain ⟨_, hc, hu, hall⟩ := mergePass_of_false regions _ c u false hm
      rw [hu] at hju
      rw [hc]
      exact hall j (List.mem_range.2 hjn) hju

/-- Invariant of the outer loop: boxes already emitted do not overlap any
region still unused, and every emitted box is overlap-free from the members
of every later cluster. -/
theorem mergeClusters_pairwise (regions : List Region) (is : List Nat)
    (acc : List (Region × Finset Nat)) (used : Finset Nat)
    (his : ∀ i ∈ is, i < regions.length)
    (hA : ∀ p ∈ acc, ∀ j, j < regions.length → j ∉ used →
      regionsOverlap p.1 (regions.getD j default) = false)
    (hB : acc.Pairwise (fun p q => ∀ j ∈ q.2,
      regionsOverlap p.1 (regions.getD j default) = false)) :
    (mergeClusters regions is acc used).Pairwise (fun p q => ∀ j ∈ q.2,
      regionsOverlap p.1 (regions.getD j default) = false) := by
  induction is generalizing acc used with
  | nil => exact hB
  | cons i is ih =>
    rw [mergeClusters]
    by_cases hi : i ∈ used
    · rw [if_pos hi]
      exact ih acc used (fun i' hi' => his i' (List.mem_cons_of_mem _ hi')) hA hB
    · rw [if_neg hi]
      show (mergeClusters regions is
        (acc ++ [((mergeLoop regions (regions.length + 1) (regions.getD i default)
            (insert i used)).1,
          (mergeLoop regions (regions.length + 1) (regions.getD i default)
            (insert i used)).2 \ used)])
        (mergeLoop regions (regions.length + 1) (regions.getD i default)
          (insert i used)).2).Pairwise _
      have hsub : used ⊆ (mergeLoop regions (regions.length + 1)
          (regions.getD i default) (insert i used)).2 :=
        (Finset.subset_insert i used).trans (mergeLoop_subset regions _ _ _)
      have hmemlt : ∀ j ∈ (mergeLoop regions (regions.length + 1)
          (regions.getD i default) (insert i used)).2 \ used, j < regions.length := by
        intro j hj
        have hju := Finset.mem_sdiff.1 hj
        rcases mergeLoop_mem regions _ _ _ j hju.1 with h | h
        · rcases Finset.mem_insert.1 h with rfl | h
          · exact his j (List.mem_cons_self _ _)
          · exact absurd h hju.2
        · exact h
      refine ih _ _ (fun i' hi' => his i' (List.mem_cons_of_mem _ hi')) ?_ ?_
      · intro p hp j hjn hju
        rcases List.mem_append.1 hp with hp | hp
        · exact hA p hp j hjn (fun hmem => hju (hsub hmem))
        · rcases List.mem_singleton.1 hp with rfl
          exact mergeLoop_post regions _ _ _ (Nat.le_add_right _ _) j hjn hju
      · rw [List.pairwise_append]
        refine ⟨hB, List.pairwise_singleton _ _, ?_⟩
        intro p hp q hq
        rcases List.mem_singleton.1 hq with rfl
        intro j hj
        have hju := Finset.mem_sdiff.1 hj
        exact hA p hp j (hmemlt j hj) hju.2

/-- C1, amended.  The merged boxes of `mergeOverlappingRegions` are the
boxes of the clusters tracked by `mergeClusters`, and every emitted box is
overlap-free from every input region absorbed into any later cluster.  Two
output boxes themselves may still overlap — the counterexample shows a later
cluster whose union box grows around an earlier output without any of its
constituent regions overlapping it — so the original pairwise-disjointness
claim is weakened to this cross-member disjointness. -/
theorem c1_merge_cross_member_disjoint (regions : List Region) :
    mergeOverlappingRegions regions =
      (mergeClusters regions (List.range regions.length) [] ∅).map (·.1) ∧
    (mergeClusters regions (List.range regions.length) [] ∅).Pairwise
      (fun p q => ∀ j ∈ q.2, regionsOverlap p.1 (regions.getD j default) = false) := by
  constructor
  · unfold mergeOverlappingRegions
    by_cases h : regions.isEmpty
    · rw [if_pos h]
      have : regions = [] := List.isEmpty_iff.1 h
      subst this
      rfl
    · rw [if_neg h]
  · exact mergeClusters_pairwise regions (List.range regions.length) [] ∅
      (fun i hi => List.mem_range.1 hi)
      (fun p hp => absurd hp (List.not_mem_nil p))
      (List.Pairwise.nil)

/-! ## C10: termination of the canvas detection strategy -/

namespace CanvasStrategy

/-- Number of in-range pixels already visited. -/
def cardV (img : ImageData) (v : Finset Int) : Nat :=
  (v.filter (fun idx => 0 ≤ idx ∧ idx < ((img.width * img.height : Nat) : Int))).card

/-- Loop variant of the flood fill: each iteration either visits a new
in-range pixel (adding four stack entries) or pops one entry. -/
def floodMeasure (img : ImageData) (s : FloodState) : Nat :=
  5 * (img.width * img.height - cardV img s.visited) + s.stack.length

theorem cardV_le (img : ImageData) (v : Finset Int) :
    cardV img v ≤ img.width * img.height := by
  unfold cardV
  have hsub : v.filter (fun idx => 0 ≤ idx ∧ idx < ((img.width * img.height : Nat) : Int)) ⊆
      Finset.Icc (0 : Int) ((img.width * img.height : Nat) - 1) := by
    intro idx hidx
    have h := (Finset.mem_filter.1 hidx).2
    rw [Finset.mem_Icc]
    omega
  have := Finset.card_le_card hsub
  rw [Int.card_Icc] at this
  omega

theorem floodLoop_nil (img : ImageData) (f : Nat) (s : FloodState)
    (hs : s.stack = []) : floodLoop img f s = s := by
  cases f with
  | zero => rfl
  | succ f =>
    rw [floodLoop, hs]

theorem floodStep_measure (img : ImageData) (x y : Int) (rest : List (Int × Int))
    (s : FloodState) (hs : s.stack = (x, y) :: rest) :
    floodMeasure img (floodStep img x y rest s) < floodMeasure img s := by
  unfold floodStep
  by_cases h1 : (decide (y * (img.width : Int) + x ∈ s.visited) ||
      decide (x < 0) || decide ((img.width : Int) ≤ x) || decide (y < 0) ||
      decide ((img.height : Int) ≤ y)) = true
  · rw [if_pos h1]
    unfold floodMeasure
    rw [hs]
    simp only [List.length_cons]
    omega
  · rw [if_neg h1]
    simp only [Bool.or_eq_true, decide_eq_true_eq, not_or, not_lt, not_le] at h1
    obtain ⟨⟨⟨⟨hvis, hx0⟩, hxw⟩, hy0⟩, hyh⟩ := h1
    by_cases h2 : (!isRed (img.data.getD (((y * (img.width : Int) + x) * 4).toNat) 0)
        (img.data.getD (((y * (img.width : Int) + x) * 4).toNat + 1) 0)
        (img.data.getD (((y * (img.width : Int) + x) * 4).toNat + 2) 0)) = true
    · rw [if_pos h2]
      unfold floodMeasure
      rw [hs]
      simp only [List.length_cons]
      omega
    · rw [if_neg h2]
      unfold floodMeasure cardV
      rw [hs]
      simp only [List.length_cons]
      have hrange : (0 : Int) ≤ y * (img.width : Int) + x ∧
          y * (img.width : Int) + x < ((img.width * img.height : Nat) : Int) := by
        constructor
        · have := mul_nonneg hy0 (by positivity : (0 : Int) ≤ (img.width : Int))
          omega
        · have h1 : y * (img.width : Int) ≤ ((img.height : Int) - 1) * (img.width : Int) :=
            mul_le_mul_of_nonneg_right (by omega) (by positivity)
          have h2 : ((img.height : Int) - 1) * (img.width : Int) =
              (img.height : Int) * (img.width : Int) - (img.width : Int) := by ring
          have h3 : ((img.width * img.height : Nat) : Int) =
              (img.width : Int) * (img.height : Int) := by
            push_cast
            ring
          rw [h3]
          have h4 : (img.height : Int) * (img.width : Int) =
              (img.width : Int) * (img.height : Int) := by ring
          omega
      have hfins : Finset.filter (fun idx => 0 ≤ idx ∧
            idx < ((img.width * img.height : Nat) : Int))
            (insert (y * (img.width : Int) + x) s.visited) =
          insert (y * (img.width : Int) + x)
            (Finset.filter (fun idx => 0 ≤ idx ∧
              idx < ((img.width * img.height : Nat) : Int)) s.visited) := by
        rw [Finset.filter_insert, if_pos hrange]
      rw [hfins, Finset.card_insert_of_not_mem
        (fun hmem => hvis (Finset.mem_of_mem_filter _ hmem))]
      have hle := cardV_le img s.visited
      have hle2 := cardV_le img (insert (y * (img.width : Int) + x) s.visited)
      unfold cardV at hle hle2
      rw [hfins, Finset.card_insert_of_not_mem
        (fun hmem => hvis (Finset.mem_of_mem_filter _ hmem))] at hle2
      omega

theorem floodLoop_stable (img : ImageData) (m : Nat) :
    ∀ (s : FloodState) (f₁ f₂ : Nat), floodMeasure img s ≤ m →
      floodMeasure img s ≤ f₁ → floodMeasure img s ≤ f₂ →
      floodLoop img f₁ s = floodLoop img f₂ s := by
  induction m with
  | zero =>
    intro s f₁ f₂ hm _ _
    have hnil : s.stack = [] := by
      have : s.stack.length = 0 := by
        unfold floodMeasure at hm
        omega
      exact List.length_eq_zero.1 this
    rw [floodLoop_nil img f₁ s hnil, floodLoop_nil img f₂ s hnil]
  | succ m ih =>
    intro s f₁ f₂ hm hf₁ hf₂
    cases hstk : s.stack with
    | nil => rw [floodLoop_nil img f₁ s hstk, floodLoop_nil img f₂ s hstk]
    | cons p rest =>
      obtain ⟨x, y⟩ := p
      have hmeas : 1 ≤ floodMeasure img s := by
        unfold floodMeasure
        rw [hstk]
        simp only [List.length_cons]
        omega
      obtain ⟨a, rfl⟩ : ∃ a, f₁ = a + 1 := ⟨f₁ - 1, by omega⟩
      obtain ⟨b, rfl⟩ : ∃ b, f₂ = b + 1 := ⟨f₂ - 1, by omega⟩
      rw [floodLoop, floodLoop, hstk]
      have hdec := floodStep_measure img x y rest s hstk
      exact ih (floodStep img x y rest s) a b (by omega) (by omega) (by omega)

theorem findCluster_stable (img : ImageData) (f₁ f₂ : Nat)
    (h₁ : 5 * (img.width * img.height) + 1 ≤ f₁)
    (h₂ : 5 * (img.width * img.height) + 1 ≤ f₂)
    (startX startY : Int) (visited : Finset Int) :
    findCluster img f₁ startX startY visited = findCluster img f₂ startX startY visited := by
  unfold findCluster
  have hmeas : floodMeasure img
      { stack := [(startX, startY)], visited := visited,
        minX := startX, maxX := startX, minY := startY, maxY := startY } ≤
      5 * (img.width * img.height) + 1 := by
    unfold floodMeasure
    simp only [List.length_cons, List.length_nil]
    omega
  rw [floodLoop_stable img (5 * (img.width * img.height) + 1) _ f₁ f₂ hmeas
    (by omega) (by omega)]

theorem scanPoint_stable (img : ImageData) (f₁ f₂ : Nat)
    (h₁ : 5 * (img.width * img.height) + 1 ≤ f₁)
    (h₂ : 5 * (img.width * img.height) + 1 ≤ f₂) :
    scanPoint img f₁ = scanPoint img f₂ := by
  funext y x acc
  unfold scanPoint
  rw [findCluster_stable img f₁ f₂ h₁ h₂]

end CanvasStrategy

theorem mergeLoop_stable_aux (regions : List Region) (m : Nat) :
    ∀ (c : Region) (u : Finset Nat) (f₁ f₂ : Nat),
      regions.length + 1 ≤ m + (u.filter (· < regions.length)).card →
      regions.length + 1 ≤ f₁ + (u.filter (· < regions.length)).card →
      regions.length + 1 ≤ f₂ + (u.filter (· < regions.length)).card →
      mergeLoop regions f₁ c u = mergeLoop regions f₂ c u := by
  induction m with
  | zero =>
    intro c u f₁ f₂ hm _ _
    have := filter_lt_card_le u regions.length
    omega
  | succ m ih =>
    intro c u f₁ f₂ hm hf₁ hf₂
    have hcle := filter_lt_card_le u regions.length
    obtain ⟨a, rfl⟩ : ∃ a, f₁ = a + 1 := ⟨f₁ - 1, by omega⟩
    obtain ⟨b, rfl⟩ : ∃ b, f₂ = b + 1 := ⟨f₂ - 1, by omega⟩
    rw [mergeLoop, mergeLoop]
    by_cases hmerged : (mergePass regions (List.range regions.length) c u false).2.2 = true
    · simp only [hmerged, if_true]
      have hcard : (u.filter (· < regions.length)).card <
          (((mergePass regions (List.range regions.length) c u false).2.1).filter
            (· < regions.length)).card :=
        mergePass_card regions regions.length _
          (fun j' hj' => List.mem_range.1 hj') c u hmerged
      refine ih _ _ a b ?_ ?_ ?_
      · refine le_trans hm ?_
        rw [Nat.add_assoc, Nat.add_comm 1]
        exact Nat.add_le_add_left hcard m
      · refine le_trans hf₁ ?_
        rw [Nat.add_assoc, Nat.add_comm 1]
        exact Nat.add_le_add_left hcard a
      · refine le_trans hf₂ ?_
        rw [Nat.add_assoc, Nat.add_comm 1]
        exact Nat.add_le_add_left hcard b
    · simp only [Bool.not_eq_true] at hmerged
      simp only [hmerged, Bool.false_eq_true, if_false]

/-- C10: the canvas detection strategy is a total function.  Conjunct one:
the result of `detectRedRegions` is independent of the flood-fill fuel once
it reaches the variant bound `5*width*height + 1` — each flood iteration
either visits a new in-range pixel or shrinks the stack, so the loop reaches
its fixed point within that many steps.  Conjunct two: the region-merge
`while (mergedNew)` loop stabilizes within `regions.length + 1` passes —
each pass that merges marks at least one previously unused region as
used. -/
theorem c10_detect_terminates :
    (∀ (img : ImageData) (f₁ f₂ : Nat),
        5 * (img.width * img.height) + 1 ≤ f₁ →
        5 * (img.width * img.height) + 1 ≤ f₂ →
        CanvasStrategy.detectRedRegions f₁ img = CanvasStrategy.detectRedRegions f₂ img) ∧
    (∀ (regions : List Region) (c : Region) (u : Finset Nat) (f : Nat),
        regions.length + 1 ≤ f →
        mergeLoop regions f c u = mergeLoop regions (regions.length + 1) c u) := by
  constructor
  · intro img f₁ f₂ h₁ h₂
    unfold CanvasStrategy.detectRedRegions
    rw [CanvasStrategy.scanPoint_stable img f₁ f₂ h₁ h₂]
  · intro regions c u f hf
    exact mergeLoop_stable_aux regions f c u f (regions.length + 1)
      (hf.trans (Nat.le_add_right f _))
      (hf.trans (Nat.le_add_right f _))
      (Nat.le_add_right _ _)

theorem c10_detect_terminates_witness :
    CanvasStrategy.detectRedRegions 6 ⟨1, 1, [255, 0, 0, 255]⟩ =
      CanvasStrategy.detectRedRegions 9 ⟨1, 1, [255, 0, 0, 255]⟩ ∧
    mergeLoop ([] : List Region) 1 ⟨0, 0, 1, 1⟩ ∅ =
      mergeLoop ([] : List Region) (([] : List Region).length + 1) ⟨0, 0, 1, 1⟩ ∅ :=
  ⟨c10_detect_terminates.1 ⟨1, 1, [255, 0, 0, 255]⟩ 6 9 (by norm_num) (by norm_num),
   c10_detect_terminates.2 [] ⟨0, 0, 1, 1⟩ ∅ 1 (by norm_num)⟩
